import Mathlib

namespace VTS

/-!
# Verification of the validate.ts dependency-aware validation scheduler

Shallow embedding of the core of the `thetrompf/validate.ts` repository:

* the generic dependency graph (`src/dependency-graph/graph.ts`) with its
  recursive depth-first search (`src/dependency-graph/utils.ts`, `createDfs`),
* the static validator (`src/validate.ts`, second revision with the graph),
* the live validator (`src/validation/live-validate.ts`) and its helpers
  (`src/validation/utils.ts`).

JavaScript `Map`s and `Set`s iterate in insertion order, so they are embedded
as association lists / plain lists with append-at-end insertion.  The
recursive `dfs` closure of `createDfs` shares its `visited` and `result` sets
across invocations and carries a mutable stack; it is embedded as a pair of
mutually recursive state-passing functions with an explicit fuel argument for
termination (the fuel is consumed exactly once per recursion into an
unvisited node, and is shown to be sufficient whenever it is at least the
number of nodes of the graph).

Asynchronous behaviour (promises, the 2000ms timeout) is embedded by giving
every caller-supplied validator an explicit outcome: it either resolves,
rejects with a `ValidationError`, rejects with a foreign exception, or fails
to settle before the timeout.
-/

deriving instance DecidableEq for Except

/-- Lookup in an association list; embeds JavaScript `Map.get` (the first
binding of a key is the only one, since `Map.set` overwrites in place). -/
def assocGet {K V : Type} [DecidableEq K] (k : K) : List (K × V) → Option V
  | [] => none
  | (k', v) :: rest => if k = k' then some v else assocGet k rest

/-- Update in an association list; embeds JavaScript `Map.set`: overwrite the
binding in place when the key is present, append at the end otherwise. -/
def assocSet {K V : Type} [DecidableEq K] (k : K) (v : V) : List (K × V) → List (K × V)
  | [] => [(k, v)]
  | (k', v') :: rest => if k = k' then (k, v) :: rest else (k', v') :: assocSet k v rest

/-- Insertion into an insertion-ordered set; embeds JavaScript `Set.add`
(a no-op when the element is already present, append at the end otherwise). -/
def setAdd {K : Type} [DecidableEq K] (x : K) (l : List K) : List K :=
  if x ∈ l then l else l ++ [x]

/-- The errors of the graph subsystem (`src/dependency-graph/errors.ts`):
`NoSuchNodeGraphError`, `NoSuchEdgeGraphError`, `GraphCycleError` (carrying
the cyclic path), and the bare `GraphError('This should never happen')` of
`overallOrder`.  `outOfFuel` is an artefact of the fuel-based embedding of
the recursive DFS; it is proved unreachable for sufficiently large fuel. -/
inductive GraphErr (K : Type) where
  | noSuchNode (node : K)
  | noSuchEdge (node : K)
  | cycle (path : List K)
  | invariantBroken
  | outOfFuel
  deriving DecidableEq

/-- The state shared by all invocations of one `dfs` closure produced by
`createDfs`: the `visited` set and the `result` set (both insertion
ordered).  The mutable `stack` array is passed separately, because every
successful invocation restores it. -/
structure DfsState (K : Type) where
  visited : List K
  result : List K
  deriving DecidableEq

/-- The `currentEdges.forEach(...)` loop inside `dfs`: for each edge target
in insertion order, recurse (via `visitFn`, the `dfs` closure one fuel level
down) when unvisited, throw the cycle error `GraphCycleError(stack ++
[target])` when a visited target is on the current stack, and skip
otherwise.  (When an unvisited target has no entry in the edge map, the
JavaScript recursion throws `NoSuchEdgeGraphError` before doing anything
observable, so the check is made before the recursive call.) -/
def dfsFoldFn {K : Type} [DecidableEq K] (edges : List (K × List K))
    (visitFn : K → List K → DfsState K → Except (GraphErr K) (DfsState K)) :
    List K → List K → DfsState K → Except (GraphErr K) (DfsState K)
  | [], _, st => .ok st
  | n :: ns, stk, st =>
    if n ∈ st.visited then
      if n ∈ stk then
        .error (.cycle (stk ++ [n]))
      else
        dfsFoldFn edges visitFn ns stk st
    else
      match assocGet n edges with
      | none => .error (.noSuchEdge n)
      | some _ =>
        match visitFn n stk st with
        | .error e => .error e
        | .ok st' => dfsFoldFn edges visitFn ns stk st'

/-- One invocation `dfs(currentNode)` of the recursive closure returned by
`createDfs` (`src/dependency-graph/utils.ts`): mark the node visited, push it
on the stack, iterate its edge set, pop, and append the node to the result
unless `leavesOnly` filters it out or it is already present.  `fuel` bounds
the recursion depth (one unit per nested invocation); it is proved
sufficient whenever it exceeds the number of unvisited keys. -/
def dfsVisit {K : Type} [DecidableEq K] (edges : List (K × List K)) (leavesOnly : Bool) :
    Nat → K → List K → DfsState K → Except (GraphErr K) (DfsState K)
  | 0 => fun _ _ _ => .error .outOfFuel
  | fuel + 1 => fun cur stk st =>
    let st1 : DfsState K := { st with visited := setAdd cur st.visited }
    match assocGet cur edges with
    | none => .error (.noSuchEdge cur)
    | some es =>
      match dfsFoldFn edges (dfsVisit edges leavesOnly fuel) es (stk ++ [cur]) st1 with
      | .error e => .error e
      | .ok st2 =>
        if (leavesOnly = false ∨ es = []) ∧ cur ∉ st2.result then
          .ok { st2 with result := st2.result ++ [cur] }
        else
          .ok st2

/-- Successive invocations of one shared `dfs` closure on a list of start
nodes with an empty stack; embeds `keys.forEach(cycleDfs)` and
`roots.forEach(dfs)` in `Graph.overallOrder`. -/
def dfsTopFold {K : Type} [DecidableEq K] (edges : List (K × List K)) (leavesOnly : Bool)
    (fuel : Nat) : List K → DfsState K → Except (GraphErr K) (DfsState K)
  | [], st => .ok st
  | k :: ks, st =>
    match dfsVisit edges leavesOnly fuel k [] st with
    | .error e => .error e
    | .ok st' => dfsTopFold edges leavesOnly fuel ks st'

/-- The dependency graph (`src/dependency-graph/graph.ts`): a node map
carrying opaque data and two insertion-ordered adjacency maps.
`addDependency(from, to)` records that `to` depends on `from`:
`to` is appended to `from`'s outgoing set and `from` to `to`'s incoming
set. -/
structure Graph (K V : Type) where
  nodes : List (K × V)
  incomingEdges : List (K × List K)
  outgoingEdges : List (K × List K)
  deriving DecidableEq

/-- `new Graph()`. -/
def Graph.empty {K V : Type} : Graph K V := ⟨[], [], []⟩

/-- `Graph.addNode(node, data)`: a no-op when the node exists, otherwise the
node is inserted with empty incoming and outgoing edge sets. -/
def Graph.addNode {K V : Type} [DecidableEq K] (g : Graph K V) (node : K) (data : V) :
    Graph K V :=
  if (assocGet node g.nodes).isSome then g
  else
    { nodes := g.nodes ++ [(node, data)]
      incomingEdges := g.incomingEdges ++ [(node, [])]
      outgoingEdges := g.outgoingEdges ++ [(node, [])] }

/-- `Graph.hasNode(node)`. -/
def Graph.hasNode {K V : Type} [DecidableEq K] (g : Graph K V) (node : K) : Bool :=
  (assocGet node g.nodes).isSome

/-- `Graph.getNodeData(node)`: fetch the data and throw `NoSuchNodeGraphError`
when `data == null`.  The node data of the validators is a possibly-absent
constraint, embedded as `Option W`; `Map.get` on an absent key and stored
`null`/`undefined` data are indistinguishable, so both flatten to `none`. -/
def Graph.getNodeData {K W : Type} [DecidableEq K] (g : Graph K (Option W)) (node : K) :
    Except (GraphErr K) W :=
  match (assocGet node g.nodes).join with
  | none => .error (.noSuchNode node)
  | some d => .ok d

/-- `Graph.addDependency(fromNode, toNode)`: `toNode` will depend on
`fromNode`; throws `NoSuchNodeGraphError` when either edge set is absent. -/
def Graph.addDependency {K V : Type} [DecidableEq K] (g : Graph K V) (fromNode toNode : K) :
    Except (GraphErr K) (Graph K V) :=
  match assocGet fromNode g.outgoingEdges with
  | none => .error (.noSuchNode fromNode)
  | some outE =>
    match assocGet toNode g.incomingEdges with
    | none => .error (.noSuchNode toNode)
    | some incE =>
      .ok { g with
            incomingEdges := assocSet toNode (setAdd fromNode incE) g.incomingEdges
            outgoingEdges := assocSet fromNode (setAdd toNode outE) g.outgoingEdges }

/-- `Graph.immediateDependenciesOf(node)`: the outgoing edge set. -/
def Graph.immediateDependenciesOf {K V : Type} [DecidableEq K] (g : Graph K V) (node : K) :
    Except (GraphErr K) (List K) :=
  if (assocGet node g.nodes).isSome then
    .ok ((assocGet node g.outgoingEdges).getD [])
  else
    .error (.noSuchNode node)

/-- `Graph.dependenciesOf(node, leavesOnly)`: DFS over the outgoing edges
from `node`, then delete `node` from the result. -/
def Graph.dependenciesOf {K V : Type} [DecidableEq K] (g : Graph K V) (node : K)
    (leavesOnly : Bool) : Except (GraphErr K) (List K) :=
  if (assocGet node g.nodes).isSome then
    match dfsVisit g.outgoingEdges leavesOnly g.nodes.length node [] ⟨[], []⟩ with
    | .error e => .error e
    | .ok st => .ok (st.result.erase node)
  else
    .error (.noSuchNode node)

/-- `Graph.dependantsOf(node, leavesOnly)`: the same traversal over the
incoming edges. -/
def Graph.dependantsOf {K V : Type} [DecidableEq K] (g : Graph K V) (node : K)
    (leavesOnly : Bool) : Except (GraphErr K) (List K) :=
  if (assocGet node g.nodes).isSome then
    match dfsVisit g.incomingEdges leavesOnly g.nodes.length node [] ⟨[], []⟩ with
    | .error e => .error e
    | .ok st => .ok (st.result.erase node)
  else
    .error (.noSuchNode node)

/-- The `keys.filter(...)` step of `overallOrder`: keep the keys with an empty
incoming edge set, throwing `GraphError('This should never happen')` when a
key has no incoming entry. -/
def filterRoots {K : Type} [DecidableEq K] (inc : List (K × List K)) :
    List K → Except (GraphErr K) (List K)
  | [] => .ok []
  | n :: ns =>
    match assocGet n inc with
    | none => .error .invariantBroken
    | some ie =>
      match filterRoots inc ns with
      | .error e => .error e
      | .ok rest => if ie = [] then .ok (n :: rest) else .ok rest

/-- `Graph.overallOrder(leavesOnly)`: empty graph short-circuit, a cycle
pre-pass running a shared DFS over every key, then a DFS over the roots (keys
without incoming edges) accumulating the returned order. -/
def Graph.overallOrder {K V : Type} [DecidableEq K] (g : Graph K V) (leavesOnly : Bool) :
    Except (GraphErr K) (List K) :=
  if g.nodes.isEmpty then .ok []
  else
    let keys := g.nodes.map Prod.fst
    match dfsTopFold g.outgoingEdges false g.nodes.length keys ⟨[], []⟩ with
    | .error e => .error e
    | .ok _ =>
      match filterRoots g.incomingEdges keys with
      | .error e => .error e
      | .ok roots =>
        match dfsTopFold g.outgoingEdges leavesOnly g.nodes.length roots ⟨[], []⟩ with
        | .error e => .error e
        | .ok st => .ok st.result

/-! ## The edge relation, well-formedness, order predicates -/

/-- `edgeStep edges a b` holds when the edge map has an entry for `a` whose
set contains `b`; for the outgoing map this is "`b` depends on `a`". -/
def edgeStep {K : Type} [DecidableEq K] (edges : List (K × List K)) (a b : K) : Prop :=
  b ∈ (assocGet a edges).getD []

instance {K : Type} [DecidableEq K] (edges : List (K × List K)) (a b : K) :
    Decidable (edgeStep edges a b) :=
  inferInstanceAs (Decidable (b ∈ _))

/-- The keys of an edge map. -/
def keysOf {K : Type} (edges : List (K × List K)) : List K := edges.map Prod.fst

/-- Every edge target is itself a key of the edge map. -/
def EdgesClosed {K : Type} [DecidableEq K] (edges : List (K × List K)) : Prop :=
  ∀ a b, edgeStep edges a b → b ∈ keysOf edges

/-- `a` appears strictly before `b` in the list `l`. -/
def ListBefore {K : Type} [DecidableEq K] (l : List K) (a b : K) : Prop :=
  a ∈ l ∧ b ∈ l ∧ l.indexOf a < l.indexOf b

instance {K : Type} [DecidableEq K] (l : List K) (a b : K) : Decidable (ListBefore l a b) :=
  inferInstanceAs (Decidable (_ ∧ _ ∧ _))

/-- A genuine cycle witness as produced by the DFS: an edge-chain whose last
element repeats an element occurring earlier in the chain. -/
def CyclePath {K : Type} [DecidableEq K] (edges : List (K × List K)) (p : List K) : Prop :=
  List.Chain' (edgeStep edges) p ∧ ∃ q r, p = q ++ [r] ∧ r ∈ q

/-! ## Counting unvisited keys (fuel sufficiency measure) -/

/-- The number of keys of the edge map not yet visited. -/
def unvisitedCount {K : Type} [DecidableEq K] (edges : List (K × List K))
    (visited : List K) : Nat :=
  ((keysOf edges).filter (fun k => decide (k ∉ visited))).length

/-! ## The DFS invariant and the main DFS theorem -/

/-- Invariant of a shared DFS state relative to the current recursion stack:
the visited set is exactly the result set together with the stack, the result
is closed under the edge relation with every edge target placed strictly
before its source, the result has no duplicates, and every result member is a
key of the edge map. -/
structure DfsInv {K : Type} [DecidableEq K] (edges : List (K × List K)) (stk : List K)
    (st : DfsState K) : Prop where
  visEq : ∀ x, x ∈ st.visited ↔ (x ∈ st.result ∨ x ∈ stk)
  resClosed : ∀ d ∈ st.result, ∀ b, edgeStep edges d b → b ∈ st.result
  resOrdered : ∀ d ∈ st.result, ∀ b, edgeStep edges d b → ListBefore st.result b d
  resNodup : st.result.Nodup
  resKeys : ∀ x ∈ st.result, x ∈ keysOf edges

/-- Success postcondition for one `dfs` invocation. -/
def VisitOkPost {K : Type} [DecidableEq K] (edges : List (K × List K)) (stk : List K)
    (st st' : DfsState K) (cur : K) : Prop :=
  DfsInv edges stk st' ∧ (∀ x ∈ st.visited, x ∈ st'.visited) ∧ cur ∈ st'.visited ∧
    (∃ t, st'.result = st.result ++ t) ∧ cur ∈ st'.result

/-- Success postcondition for the edge-iteration loop. -/
def FoldOkPost {K : Type} [DecidableEq K] (edges : List (K × List K)) (stk : List K)
    (st st' : DfsState K) (es : List K) : Prop :=
  DfsInv edges stk st' ∧ (∀ x ∈ st.visited, x ∈ st'.visited) ∧
    (∃ t, st'.result = st.result ++ t) ∧ (∀ n ∈ es, n ∈ st'.result)

/-! ## Well-formed graphs -/

/-- The node identifiers of a graph, in insertion order. -/
def nodeKeys {K V : Type} (g : Graph K V) : List K := g.nodes.map Prod.fst

/-- The structural invariant maintained by the `Graph` API: the three maps
share the same keys, keys are unique, every edge references an existing node,
and the two adjacency maps mirror each other (`addDependency(from, to)`
records `to` in `from`'s outgoing set and `from` in `to`'s incoming set). -/
def WellFormed {K V : Type} [DecidableEq K] (g : Graph K V) : Prop :=
  keysOf g.incomingEdges = nodeKeys g ∧
  keysOf g.outgoingEdges = nodeKeys g ∧
  (nodeKeys g).Nodup ∧
  (∀ p ∈ g.outgoingEdges, ∀ b ∈ p.2, b ∈ nodeKeys g) ∧
  (∀ p ∈ g.incomingEdges, ∀ b ∈ p.2, b ∈ nodeKeys g) ∧
  (∀ a ∈ nodeKeys g, ∀ b ∈ nodeKeys g,
    (edgeStep g.outgoingEdges a b ↔ edgeStep g.incomingEdges b a))

instance {K V : Type} [DecidableEq K] (g : Graph K V) : Decidable (WellFormed g) :=
  inferInstanceAs (Decidable (_ ∧ _ ∧ _ ∧ _ ∧ _ ∧ _))

/-- Acyclicity of the dependency graph. -/
def Graph.AcyclicOut {K V : Type} [DecidableEq K] (g : Graph K V) : Prop :=
  ∀ n, ¬ Relation.TransGen (edgeStep g.outgoingEdges) n n

/-! ## Concrete graphs used by the graph claims -/

/-- Two fields, `addNode 0; addNode 1; addDependency 0 1` — field `1` depends
on field `0`. -/
def pairGraph : Graph Nat (Option Unit) :=
  { nodes := [(0, none), (1, none)]
    incomingEdges := [(0, []), (1, [0])]
    outgoingEdges := [(0, [1]), (1, [])] }

/-- The three-field cycle `a → b → c → a` of the spec's example, with
`a, b, c` as `0, 1, 2`. -/
def triGraph : Graph Nat (Option Unit) :=
  { nodes := [(0, none), (1, none), (2, none)]
    incomingEdges := [(0, [2]), (1, [0]), (2, [1])]
    outgoingEdges := [(0, [1]), (1, [2]), (2, [0])] }

/-- A root `0` plus a cycle `1 → 2 → 3 → 1` none of whose members is a root;
the cycle is unreachable from the only root. -/
def rootCycGraph : Graph Nat (Option Unit) :=
  { nodes := [(0, none), (1, none), (2, none), (3, none)]
    incomingEdges := [(0, []), (1, [3]), (2, [1]), (3, [2])]
    outgoingEdges := [(0, []), (1, [2]), (2, [3]), (3, [1])] }

/-! ## The value model, error model and helpers shared by both validators

Field values are embedded after resolution: a `Promise`-valued field stands
for its resolved value (the engine always normalizes through
`Promise.resolve`/`getValue`).  Arrays carry only their length — the sole
property the engine ever inspects (`value.length === 0` in `isEmpty`). -/

/-- A JavaScript value as seen by the validation engine. -/
inductive JSValue where
  | undef
  | nullV
  | str (s : String)
  | num (n : Int)
  | boolV (b : Bool)
  | arr (len : Nat)
  deriving DecidableEq

/-- `value.trim()` of JavaScript: strip leading and trailing whitespace
characters. -/
def jsTrim (s : String) : List Char :=
  ((s.data.dropWhile Char.isWhitespace).reverse.dropWhile Char.isWhitespace).reverse

/-- `isEmpty(value)` (`src/validation/utils.ts`): `value == null`, or a
string whose trimmed length is `0`, or an array of length `0`; anything else
is non-empty. -/
def isEmpty : JSValue → Bool
  | .undef => true
  | .nullV => true
  | .str s => (jsTrim s).length == 0
  | .arr len => len == 0
  | _ => false

/-- `VALIDATION_TIMEOUT`: the fixed threshold, 2000 milliseconds; a module
constant, not a per-call parameter. -/
def VALIDATION_TIMEOUT : Nat := 2000

/-- The `ValidationError` hierarchy (`src/validation/errors.ts`): the base
class, `ValidationTimeoutError`, `RequiredValidationError`.  Every
constructor is an `instanceof ValidationError`. -/
inductive VErr where
  | validation (msg : String)
  | timeout (msg : String)
  | required (msg : String)
  deriving DecidableEq

/-- The rejection of `validationTimeout()`:
`new ValidationTimeoutError('Validation timeout')`. -/
def validationTimeoutError : VErr := .timeout "Validation timeout"

/-- A rejection reaching an error handler: either an `instanceof
ValidationError` or a foreign exception. -/
inductive JSRejection where
  | ve (e : VErr)
  | other (msg : String)
  deriving DecidableEq

/-- The observable outcome of one validator invocation: it resolves, rejects
with a `ValidationError`, rejects with a foreign exception, or has not
settled when the `VALIDATION_TIMEOUT` race fires. -/
inductive ValidatorOutcome where
  | resolved
  | rejectedValidation (e : VErr)
  | rejectedOther (msg : String)
  | pending
  deriving DecidableEq

/-- A caller-supplied validator: a function of the field value and the
resolved dependency map. -/
abbrev ValidatorFn := JSValue → Option (List (String × JSValue)) → ValidatorOutcome

/-- `ConstraintSpecification`. -/
structure ConstraintSpec where
  dependencies : Option (List String) := none
  required : Bool := false
  validators : Option (List ValidatorFn) := none

/-- `ValidationAggregateError.add(field, error)`: push onto the field's list
when present, otherwise insert a new singleton entry at the end. -/
def aggAdd (errors : List (String × List VErr)) (field : String) (e : VErr) :
    List (String × List VErr) :=
  match assocGet field errors with
  | some es => assocSet field (es ++ [e]) errors
  | none => errors ++ [(field, [e])]

/-- Insertion-order deduplication: `new Set(list)`. -/
def dedupList (l : List String) : List String := l.foldl (fun acc x => setAdd x acc) []

/-- `buildDependencyMap(constraints)`: one entry per constraint that declares
dependencies, the list deduplicated as a `Set`. -/
def buildDependencyMap (constraints : List (String × ConstraintSpec)) :
    List (String × List String) :=
  constraints.filterMap (fun p => (p.2.dependencies).map (fun ds => (p.1, dedupList ds)))

/-- `addConstraints(graph, node, dependencies)`: add each dependency `d` as
`addDependency(d, node)`; a no-op for `undefined`. -/
def addConstraints {V : Type} (g : Graph String V) (node : String) :
    Option (List String) → Except (GraphErr String) (Graph String V)
  | none => .ok g
  | some ds => ds.foldlM (fun g d => g.addDependency d node) g

/-- `addAllConstraints(graph, nodes, dependencyMap)`. -/
def addAllConstraints {V : Type} (g : Graph String V) (ns : List String)
    (depMap : List (String × List String)) : Except (GraphErr String) (Graph String V) :=
  ns.foldlM (fun g n => addConstraints g n (assocGet n depMap)) g

/-! ## The static validator (`src/validate.ts`, revision with the graph) -/

/-- `getPromisedDependencyMap(values, dependencies)` of the static validator:
`undefined` dependencies give `undefined`; otherwise each dependency key maps
to its (awaited) value, with `null`/`undefined`/missing values mapped to an
explicit `undefined` entry. -/
def getPromisedDependencyMap (values : List (String × JSValue)) :
    Option (List String) → Option (List (String × JSValue))
  | none => none
  | some deps => some (deps.map (fun key =>
      match assocGet key values with
      | some v => if v = .nullV ∨ v = .undef then (key, .undef) else (key, v)
      | none => (key, .undef)))

/-- `handleValidationErrors(key)` (`src/validate.ts`): a rejection that is an
`instanceof ValidationError` is appended to the aggregate under `key`;
anything else is rethrown. -/
def handleValidationErrors (errors : List (String × List VErr)) (key : String) :
    JSRejection → Except String (List (String × List VErr))
  | .ve e => .ok (aggAdd errors key e)
  | .other m => .error m

/-- Run a field's validators (each raced against one shared per-key timeout
instance, its rejection routed through `handleValidationErrors`): returns
the grown aggregate together with a flag recording whether some validator
was still pending when the shared timeout fired, or the foreign exception
rethrown by the handler. -/
def runValidators (key : String) (value : JSValue) (deps : Option (List (String × JSValue)))
    (errors : List (String × List VErr)) :
    List ValidatorFn → Except String (List (String × List VErr) × Bool)
  | [] => .ok (errors, false)
  | v :: rest =>
    match v value deps with
    | .resolved => runValidators key value deps errors rest
    | .rejectedValidation e =>
      match handleValidationErrors errors key (.ve e) with
      | .ok errors' => runValidators key value deps errors' rest
      | .error m => .error m
    | .rejectedOther m =>
      match handleValidationErrors errors key (.other m) with
      | .ok errors' => runValidators key value deps errors' rest
      | .error m' => .error m'
    | .pending =>
      match runValidators key value deps errors rest with
      | .ok (errors', _) => .ok (errors', true)
      | .error m => .error m

/-- Process one field of the static validator (the body of the
promise chain pushed for each key of the overall order): empty values yield
at most a `RequiredValidationError` and skip the validators; otherwise the
validators run against the shared per-key timeout, and a pending validator
leaves the shared timeout's `ValidationTimeoutError` to be caught by the
outer `keyValidationErrorsHandler` and recorded for the field. -/
def processField (key : String) (value : JSValue) (c : ConstraintSpec)
    (deps : Option (List (String × JSValue))) (errors : List (String × List VErr)) :
    Except String (List (String × List VErr)) :=
  if isEmpty value then
    if c.required then .ok (aggAdd errors key (.required "Cannot be blank"))
    else .ok errors
  else
    match c.validators with
    | none => .ok errors
    | some vs =>
      match runValidators key value deps errors vs with
      | .error m => .error m
      | .ok (errors', pending) =>
        if pending then
          match handleValidationErrors errors' key (.ve validationTimeoutError) with
          | .ok errors'' => .ok errors''
          | .error m => .error m
        else .ok errors'

/-- The field value: `values[key]`. -/
def valueOf (values : List (String × JSValue)) (key : String) : JSValue :=
  (assocGet key values).getD (.undef)

/-- The loop over `graph.overallOrder()`: fields without a constraint are
skipped; each constrained field's work grows the shared aggregate; the first
foreign exception is remembered (it is what the `await Promise.all` rejects
with). -/
def runFields (values : List (String × JSValue)) (constraints : List (String × ConstraintSpec)) :
    List String → List (String × List VErr) → Option String →
      List (String × List VErr) × Option String
  | [], errors, fatal => (errors, fatal)
  | key :: rest, errors, fatal =>
    match assocGet key constraints with
    | none => runFields values constraints rest errors fatal
    | some c =>
      match processField key (valueOf values key) c
          (getPromisedDependencyMap values (assocGet key (buildDependencyMap constraints)))
          errors with
      | .ok errors' => runFields values constraints rest errors' fatal
      | .error m =>
        runFields values constraints rest errors
          (match fatal with | some f => some f | none => some m)

/-- Graph construction and `overallOrder()` of `validate`: one node per
value key carrying its (possibly absent) constraint, one edge per declared
dependency. -/
def staticOrder (values : List (String × JSValue))
    (constraints : List (String × ConstraintSpec)) :
    Except (GraphErr String) (List String) :=
  let keys := values.map Prod.fst
  let graph0 : Graph String (Option ConstraintSpec) :=
    keys.foldl (fun g k => g.addNode k (assocGet k constraints)) Graph.empty
  match addAllConstraints graph0 keys (buildDependencyMap constraints) with
  | .error e => .error e
  | .ok graph => graph.overallOrder false

/-- The overall outcome of a `validate(values, constraints)` call. -/
inductive TopErr where
  | graph (e : GraphErr String)
  | exception (msg : String)
  | aggregate (errors : List (String × List VErr))
  deriving DecidableEq

/-- `validate(values, constraints)` (`src/validate.ts`): build the graph,
walk the overall order scheduling per-field work, await everything — the
first foreign exception rejects the call — and finally reject with the
aggregate when any field collected errors. -/
def validate (values : List (String × JSValue))
    (constraints : List (String × ConstraintSpec)) : Except TopErr Unit :=
  match staticOrder values constraints with
  | .error e => .error (.graph e)
  | .ok order =>
    match runFields values constraints order [] none with
    | (_, some m) => .error (.exception m)
    | (errors, none) => if errors.isEmpty then .ok () else .error (.aggregate errors)

/-- The validation failures collected from a validator list, in declaration
order. -/
def collectFails (value : JSValue) (deps : Option (List (String × JSValue)))
    (vs : List ValidatorFn) : List VErr :=
  vs.filterMap (fun v => match v value deps with
    | .rejectedValidation e => some e
    | _ => none)

/-- Whether some validator of the list is still pending at the timeout. -/
def anyPending (value : JSValue) (deps : Option (List (String × JSValue)))
    (vs : List ValidatorFn) : Bool :=
  vs.any (fun v => v value deps == .pending)

/-- The foreign exception (if any) produced by one field's processing; it
does not depend on the shared aggregate (`processField_error_indep`). -/
def fieldFatal (values : List (String × JSValue))
    (constraints : List (String × ConstraintSpec)) (key : String) : Option String :=
  match assocGet key constraints with
  | none => none
  | some c =>
    match processField key (valueOf values key) c
        (getPromisedDependencyMap values (assocGet key (buildDependencyMap constraints)))
        [] with
    | .ok _ => none
    | .error m => some m

/-- A validator that rejects with a `ValidationError`. -/
def failValidator (msg : String) : ValidatorFn :=
  fun _ _ => .rejectedValidation (.validation msg)

/-- A validator that rejects with a foreign (non-`ValidationError`)
exception. -/
def fatalValidator (msg : String) : ValidatorFn := fun _ _ => .rejectedOther msg

/-- A validator whose promise never settles before the timeout. -/
def pendingValidator : ValidatorFn := fun _ _ => .pending

/-- `required: true` together with a (failing) validator that must be
skipped for empty values. -/
def requiredWithValidatorCS : ConstraintSpec :=
  { required := true, validators := some [failValidator "skipped"] }

/-- The empty constraint. -/
def plainCS : ConstraintSpec := {}

/-- A constraint whose single validator throws a foreign exception. -/
def fatalCS : ConstraintSpec := { validators := some [fatalValidator "boom"] }

/-- A constraint whose single validator fails with a `ValidationError`. -/
def failingCS : ConstraintSpec := { validators := some [failValidator "bad"] }

/-- A constraint whose single validator never settles. -/
def pendingCS : ConstraintSpec := { validators := some [pendingValidator] }

/-! ## The live validator (`src/live-validate.ts`) and its change map
(`src/validation/utils.ts`) -/

/-- `LiveValidationChangeMap.addError(node, error)`: push onto the node's
list when the node has an entry, otherwise insert a new singleton entry. -/
def addError (cm : List (String × List VErr)) (node : String) (e : VErr) :
    List (String × List VErr) :=
  match assocGet node cm with
  | some es => assocSet node (es ++ [e]) cm
  | none => cm ++ [(node, [e])]

/-- `LiveValidationChangeMap.markNodeAsChanged(node)`: insert an empty entry
when the node has none; a no-op otherwise. -/
def markNodeAsChanged (cm : List (String × List VErr)) (node : String) :
    List (String × List VErr) :=
  if (assocGet node cm).isSome then cm else cm ++ [(node, [])]

/-- `LiveValidationChangeMap.hasErrors`: some entry's list is non-empty. -/
def hasErrors (cm : List (String × List VErr)) : Bool :=
  cm.any (fun p => !p.2.isEmpty)

/-- `LiveValidationChangeMap.getErrorsForNode(node)`. -/
def getErrorsForNode (cm : List (String × List VErr)) (node : String) :
    Option (List VErr) :=
  assocGet node cm

/-- `getErrorHandlerForNode(node, changeMap)`: fold an `instanceof
ValidationError` into the change map under `node`; rethrow anything else. -/
def getErrorHandlerForNode (node : String) (cm : List (String × List VErr)) :
    JSRejection → Except String (List (String × List VErr))
  | .ve e => .ok (addError cm node e)
  | .other m => .error m

/-- The state threaded through a node's change handler
(`ValidationNodeState`): the shared subscription flag and the node's version
counter. -/
structure ValidationNodeState where
  subscriptionIsActive : Bool
  version : Nat
  deriving DecidableEq

/-- A live cascade aborting instead of settling its change map: a rethrown
foreign exception, a synchronous graph error, or exhausted fuel (the model's
bound on recursion depth). -/
inductive LiveAbort where
  | exception (msg : String)
  | graphError (e : GraphErr String)
  | outOfFuel
  deriving DecidableEq

/-- `getPromisedDependencyMap(values, dependencies)` of the live validator:
no declared dependencies give an *empty map* (unlike the static variant);
each dependency key with a value provider maps to its resolved value, keys
without a provider map to an explicit `undefined`. -/
def getPromisedDependencyMapLive (values : List (String × JSValue)) :
    Option (List String) → List (String × JSValue)
  | none => []
  | some deps => deps.map (fun key =>
      match assocGet key values with
      | some v => (key, v)
      | none => (key, .undef))

/-- The first foreign rejection of a validator list, in declaration order:
what the `Promise.all` over the raced validators rejects with when a
handler rethrows. -/
def firstFatal (value : JSValue) (deps : Option (List (String × JSValue)))
    (vs : List ValidatorFn) : Option String :=
  vs.findSome? (fun v => match v value deps with
    | .rejectedOther m => some m
    | _ => none)

/-- Run one live node's validators (each raced against the shared
`dependantValidationTimeout`, its rejection routed through the node's error
handler): the grown change map, whether some validator was still pending at
the timeout, and the first rethrown foreign exception if any.  Handlers of
validators listed after a foreign rejection still run against the shared
map. -/
def runLiveValidators (node : String) (value : JSValue)
    (deps : Option (List (String × JSValue))) :
    List ValidatorFn → List (String × List VErr) →
      List (String × List VErr) × Bool × Option String
  | [], cm => (cm, false, none)
  | v :: rest, cm =>
    match v value deps with
    | .resolved => runLiveValidators node value deps rest cm
    | .rejectedValidation e => runLiveValidators node value deps rest (addError cm node e)
    | .rejectedOther m =>
      let r := runLiveValidators node value deps rest cm
      (r.1, r.2.1, some m)
    | .pending =>
      let r := runLiveValidators node value deps rest cm
      (r.1, true, r.2.2)

/-- The loop body of `validateDependenciesFor`, parametrised by the
recursive call: a dependant with a constraint carrying validators is
validated; any other dependant is only marked as changed.  A rejection of
one dependant's subtree rejects the `Promise.all`. -/
def liveDepsFold (constraints : List (String × ConstraintSpec))
    (nodeFn : String → List (String × List VErr) →
      List (String × List VErr) × Option LiveAbort) :
    List String → List (String × List VErr) →
      List (String × List VErr) × Option LiveAbort
  | [], cm => (cm, none)
  | d :: rest, cm =>
    match assocGet d constraints with
    | some c =>
      match c.validators with
      | some _ =>
        match nodeFn d cm with
        | (cm', none) => liveDepsFold constraints nodeFn rest cm'
        | (cm', some e) => (cm', some e)
      | none => liveDepsFold constraints nodeFn rest (markNodeAsChanged cm d)
    | none => liveDepsFold constraints nodeFn rest (markNodeAsChanged cm d)

/-- `validateDependenciesFor(node, ...)` parametrised by the recursive
call: nothing when subscriptions are cancelled; otherwise loop over
`graph.immediateDependenciesOf(node)` (whose synchronous throw becomes a
rejection). -/
def validateDependenciesForAux (constraints : List (String × ConstraintSpec))
    (graph : Graph String (Option ConstraintSpec)) (active : Bool)
    (nodeFn : String → List (String × List VErr) →
      List (String × List VErr) × Option LiveAbort)
    (node : String) (cm : List (String × List VErr)) :
    List (String × List VErr) × Option LiveAbort :=
  cond active
    (match graph.immediateDependenciesOf node with
      | .error e => (cm, some (.graphError e))
      | .ok dependants => liveDepsFold constraints nodeFn dependants cm)
    (cm, none)

/-- `validateNode(node, ...)`: mark the node as changed; without a
constraint carrying validators, recurse into the dependants (when still
subscribed); otherwise run the validators — a rethrown foreign exception
rejects, a pending validator records the shared timeout's
`ValidationTimeoutError` and stops, and only an error-free change map
recurses into the dependants. -/
def validateNode (values : List (String × JSValue))
    (constraints : List (String × ConstraintSpec))
    (graph : Graph String (Option ConstraintSpec))
    (depMap : List (String × List String)) (active : Bool) :
    Nat → String → List (String × List VErr) →
      List (String × List VErr) × Option LiveAbort
  | 0 => fun _ cm => (cm, some .outOfFuel)
  | fuel + 1 => fun node cm =>
    let cm1 := markNodeAsChanged cm node
    match assocGet node constraints with
    | none =>
      cond active
        (validateDependenciesForAux constraints graph active
          (validateNode values constraints graph depMap active fuel) node cm1)
        (cm1, none)
    | some c =>
      match c.validators with
      | none =>
        cond active
          (validateDependenciesForAux constraints graph active
            (validateNode values constraints graph depMap active fuel) node cm1)
          (cm1, none)
      | some vs =>
        cond active
          (match runLiveValidators node (valueOf values node)
              (some (getPromisedDependencyMapLive values (assocGet node depMap))) vs cm1 with
            | (cm2, _, some m) => (cm2, some (.exception m))
            | (cm2, true, none) => (addError cm2 node validationTimeoutError, none)
            | (cm2, false, none) =>
              if hasErrors cm2 then (cm2, none)
              else
                validateDependenciesForAux constraints graph active
                  (validateNode values constraints graph depMap active fuel) node cm2)
          (cm1, none)

/-- `validateDependenciesFor` proper, with the recursive call instantiated
at the given fuel. -/
def validateDependenciesFor (values : List (String × JSValue))
    (constraints : List (String × ConstraintSpec))
    (graph : Graph String (Option ConstraintSpec))
    (depMap : List (String × List String)) (active : Bool) (fuel : Nat)
    (node : String) (cm : List (String × List VErr)) :
    List (String × List VErr) × Option LiveAbort :=
  validateDependenciesForAux constraints graph active
    (validateNode values constraints graph depMap active fuel) node cm

/-- The cascade started by one change event (the body of the key change
handler after the version bump): a node without any constraint is marked
and its dependants validated; otherwise `validateNode` runs on the node
itself, starting from a fresh change map. -/
def runCascade (values : List (String × JSValue))
    (constraints : List (String × ConstraintSpec))
    (graph : Graph String (Option ConstraintSpec))
    (depMap : List (String × List String)) (active : Bool) (fuel : Nat)
    (node : String) : List (String × List VErr) × Option LiveAbort :=
  match assocGet node constraints with
  | none =>
    validateDependenciesFor values constraints graph depMap active fuel node
      (markNodeAsChanged [] node)
  | some _ => validateNode values constraints graph depMap active fuel node []

/-- What the `localChangeCallback` of one change event received. -/
inductive LocalReport where
  | success
  | withChangeMap (cm : List (String × List VErr))
  | withException (e : LiveAbort)
  deriving DecidableEq

/-- The observable outcome of `unwrapErrors`: what reached the local
callback, what reached the global `onChange`, and what escaped to the
caller of the cascade. -/
structure UnwrapResult where
  localReport : Option LocalReport
  globalReport : Option (List (String × List VErr))
  propagated : Option LiveAbort
  deriving DecidableEq

/-- `unwrapErrors(validationPromise, changeMap, globalChangeCallback,
version, nodeState, localChangeCallback)`: on resolution the local callback
gets the change map when it has errors; on rejection the local callback
gets the exception; in both arms the global callback is invoked with the
change map exactly when the captured version is still the node's current
one and the subscription is alive, and neither arm rethrows. -/
def unwrapErrors (cm : List (String × List VErr)) (abort : Option LiveAbort)
    (version : Nat) (nodeState : ValidationNodeState) (hasLocal : Bool) :
    UnwrapResult :=
  match abort with
  | none =>
    { localReport :=
        if hasLocal then some (if hasErrors cm then .withChangeMap cm else .success)
        else none
      globalReport :=
        if version = nodeState.version ∧ nodeState.subscriptionIsActive = true then some cm
        else none
      propagated := none }
  | some e =>
    { localReport := if hasLocal then some (.withException e) else none
      globalReport :=
        if version = nodeState.version ∧ nodeState.subscriptionIsActive = true then some cm
        else none
      propagated := none }

/-- The version bump of one change event (`handleChanges`): nothing happens
when the subscription was cancelled; otherwise the node's counter is
incremented and that incremented value is the version captured by the
cascade. -/
def handleChangeEvent (st : ValidationNodeState) : Option (Nat × ValidationNodeState) :=
  if st.subscriptionIsActive then some (st.version + 1, { st with version := st.version + 1 })
  else none

/-- The subscription-time graph construction of `liveValidate`: one node
per value key carrying its (possibly absent) constraint, one edge per
declared dependency. -/
def liveSetup (values : List (String × JSValue))
    (constraints : List (String × ConstraintSpec)) :
    Except (GraphErr String) (Graph String (Option ConstraintSpec)) :=
  let keys := values.map Prod.fst
  let graph0 : Graph String (Option ConstraintSpec) :=
    keys.foldl (fun g k => g.addNode k (assocGet k constraints)) Graph.empty
  addAllConstraints graph0 keys (buildDependencyMap constraints)

/-- Build the live graph and run one cascade from `node` on it. -/
def lvCascade (values : List (String × JSValue))
    (constraints : List (String × ConstraintSpec)) (fuel : Nat) (node : String) :
    Option (List (String × List VErr) × Option LiveAbort) :=
  match liveSetup values constraints with
  | .error _ => none
  | .ok g => some (runCascade values constraints g (buildDependencyMap constraints) true fuel node)

/-- A validator that resolves. -/
def okValidator : ValidatorFn := fun _ _ => .resolved

/-- Two live fields: `b` depends on `a`; `a` carries the given validator. -/
def lvCS (av : ValidatorFn) : List (String × ConstraintSpec) :=
  [("a", { validators := some [av] }),
   ("b", { dependencies := some ["a"], validators := some [okValidator] })]

/-- The values backing `lvCS`. -/
def lvValues : List (String × JSValue) :=
  [("a", JSValue.str "x"), ("b", JSValue.str "y")]

/-! ## Basic facts about the association-list and set primitives -/

theorem assocGet_isSome_iff {K V : Type} [DecidableEq K] (k : K) (l : List (K × V)) :
    (assocGet k l).isSome ↔ k ∈ l.map Prod.fst := by
  induction l with
  | nil => simp [assocGet]
  | cons p rest ih =>
    obtain ⟨k', v⟩ := p
    by_cases h : k = k' <;> simp [assocGet, h, ih]

theorem assocGet_mem {K V : Type} [DecidableEq K] {k : K} {v : V} {l : List (K × V)}
    (h : assocGet k l = some v) : (k, v) ∈ l := by
  induction l with
  | nil => simp [assocGet] at h
  | cons p rest ih =>
    obtain ⟨k', v'⟩ := p
    by_cases hk : k = k'
    · simp only [assocGet, if_pos hk] at h
      cases h
      simp [hk]
    · simp only [assocGet, if_neg hk] at h
      exact List.mem_cons_of_mem _ (ih h)

theorem mem_setAdd {K : Type} [DecidableEq K] (x k : K) (l : List K) :
    x ∈ setAdd k l ↔ x = k ∨ x ∈ l := by
  unfold setAdd
  by_cases h : k ∈ l
  · simp only [if_pos h]
    constructor
    · exact Or.inr
    · rintro (rfl | hx)
      · exact h
      · exact hx
  · simp [if_neg h, or_comm]

theorem subset_setAdd {K : Type} [DecidableEq K] (k : K) (l : List K) :
    ∀ x ∈ l, x ∈ setAdd k l := by
  intro x hx
  rw [mem_setAdd]
  exact Or.inr hx

theorem self_mem_setAdd {K : Type} [DecidableEq K] (k : K) (l : List K) : k ∈ setAdd k l := by
  rw [mem_setAdd]
  exact Or.inl rfl

theorem keysOf_eq {K : Type} (edges : List (K × List K)) :
    keysOf edges = edges.map Prod.fst := rfl

theorem edgeStep_src_mem {K : Type} [DecidableEq K] {edges : List (K × List K)} {a b : K}
    (h : edgeStep edges a b) : a ∈ keysOf edges := by
  unfold edgeStep at h
  show a ∈ edges.map Prod.fst
  rw [← assocGet_isSome_iff]
  cases hg : assocGet a edges with
  | none => rw [hg] at h; simp at h
  | some es => simp [hg]

theorem ListBefore.trans {K : Type} [DecidableEq K] {l : List K} {a b c : K}
    (h1 : ListBefore l a b) (h2 : ListBefore l b c) : ListBefore l a c :=
  ⟨h1.1, h2.2.1, h1.2.2.trans h2.2.2⟩

theorem ListBefore.irrefl {K : Type} [DecidableEq K] {l : List K} {a : K}
    (h : ListBefore l a a) : False := by
  exact absurd h.2.2 (lt_irrefl _)

theorem ListBefore.append_left {K : Type} [DecidableEq K] {l : List K} (t : List K) {a b : K}
    (h : ListBefore l a b) : ListBefore (l ++ t) a b := by
  obtain ⟨ha, hb, hlt⟩ := h
  refine ⟨List.mem_append_left t ha, List.mem_append_left t hb, ?_⟩
  rw [List.indexOf_append_of_mem ha, List.indexOf_append_of_mem hb]
  exact hlt

theorem ListBefore.append_last {K : Type} [DecidableEq K] {l : List K} {a b : K}
    (ha : a ∈ l) (hb : b ∉ l) : ListBefore (l ++ [b]) a b := by
  refine ⟨List.mem_append_left _ ha, List.mem_append_right _ (by simp), ?_⟩
  rw [List.indexOf_append_of_mem ha, List.indexOf_append_of_not_mem hb]
  simp only [List.indexOf_cons_self, Nat.add_zero]
  exact List.indexOf_lt_length.2 ha

theorem chain_transGen_getLast {K : Type} {R : K → K → Prop} :
    ∀ (l : List K) (a b : K), List.Chain R a l → l.getLast? = some b →
      Relation.TransGen R a b := by
  intro l
  induction l with
  | nil => intro a b _ hl; simp at hl
  | cons c l' ih =>
    intro a b hch hl
    rcases hch with _ | ⟨hac, hch'⟩
    cases l' with
    | nil =>
      simp only [List.getLast?_singleton, Option.some.injEq] at hl
      subst hl
      exact Relation.TransGen.single hac
    | cons d l'' =>
      have : (d :: l'').getLast? = some b := by
        rw [← hl]
        simp [List.getLast?]
      exact Relation.TransGen.head hac (ih c b hch' this)

/-- A `CyclePath` contains an actual cycle of the edge relation. -/
theorem cyclePath_transGen {K : Type} [DecidableEq K] {edges : List (K × List K)}
    {p : List K} (h : CyclePath edges p) :
    ∃ x, Relation.TransGen (edgeStep edges) x x := by
  obtain ⟨hch, q, r, rfl, hrq⟩ := h
  obtain ⟨u, v, rfl⟩ := List.append_of_mem hrq
  refine ⟨r, ?_⟩
  have hsuffix : List.Chain' (edgeStep edges) (r :: (v ++ [r])) := by
    have : (r :: (v ++ [r])) <:+ (u ++ r :: v ++ [r]) := by
      refine ⟨u, ?_⟩
      simp
    exact List.Chain'.suffix (by simpa using hch) this
  have hchain : List.Chain (edgeStep edges) r (v ++ [r]) := hsuffix
  exact chain_transGen_getLast _ _ _ hchain (by simp)

theorem unvisitedCount_le_keys {K : Type} [DecidableEq K] (edges : List (K × List K))
    (visited : List K) : unvisitedCount edges visited ≤ (keysOf edges).length :=
  List.length_filter_le _ _

theorem filter_length_mono {K : Type} (p q : K → Bool) :
    ∀ l : List K, (∀ x ∈ l, q x = true → p x = true) →
      (l.filter q).length ≤ (l.filter p).length := by
  intro l
  induction l with
  | nil => simp
  | cons a ks ih =>
    intro h
    have hks := ih (fun x hx => h x (List.mem_cons_of_mem _ hx))
    by_cases hq : q a = true
    · have hp := h a (List.mem_cons_self _ _) hq
      rw [List.filter_cons_of_pos hq, List.filter_cons_of_pos hp]
      simpa using hks
    · rw [List.filter_cons_of_neg hq]
      calc (List.filter q ks).length ≤ (List.filter p ks).length := hks
      _ ≤ (List.filter p (a :: ks)).length := by
          by_cases hp : p a = true
          · rw [List.filter_cons_of_pos hp]; simp
          · rw [List.filter_cons_of_neg hp]

theorem unvisitedCount_mono {K : Type} [DecidableEq K] (edges : List (K × List K))
    {v v' : List K} (h : ∀ x ∈ v, x ∈ v') :
    unvisitedCount edges v' ≤ unvisitedCount edges v := by
  unfold unvisitedCount
  refine filter_length_mono _ _ _ ?_
  intro x _ hx
  simp only [decide_eq_true_eq] at hx ⊢
  exact fun hc => hx (h x hc)

theorem unvisitedCount_pos {K : Type} [DecidableEq K] {edges : List (K × List K)}
    {visited : List K} {k : K} (hk : k ∈ keysOf edges) (hv : k ∉ visited) :
    1 ≤ unvisitedCount edges visited := by
  unfold unvisitedCount
  have : k ∈ (keysOf edges).filter (fun k => decide (k ∉ visited)) :=
    List.mem_filter.2 ⟨hk, by simpa using hv⟩
  exact List.length_pos.2 (List.ne_nil_of_mem this)

theorem filter_length_setAdd {K : Type} [DecidableEq K] (visited : List K) (k : K) :
    ∀ ks : List K, ks.Nodup → k ∈ ks → k ∉ visited →
      (ks.filter (fun x => decide (x ∉ visited))).length
        = (ks.filter (fun x => decide (x ∉ setAdd k visited))).length + 1 := by
  intro ks
  induction ks with
  | nil => intro _ hk; simp at hk
  | cons a ks ih =>
    intro hnd hk hv
    rcases List.mem_cons.1 hk with rfl | hk'
    · have hknot : k ∉ ks := (List.nodup_cons.1 hnd).1
      have h1 : ∀ x ∈ ks, (decide (x ∉ setAdd k visited)) = (decide (x ∉ visited)) := by
        intro x hx
        have hxa : x ≠ k := fun hc => hknot (hc ▸ hx)
        simp [mem_setAdd, hxa]
      rw [List.filter_cons_of_pos (by simpa using hv),
        List.filter_cons_of_neg (by simp [self_mem_setAdd]), List.filter_congr h1]
      simp
    · have hnd' : ks.Nodup := (List.nodup_cons.1 hnd).2
      by_cases hak : a ∈ visited
      · have h2 : a ∈ setAdd k visited := subset_setAdd _ _ _ hak
        rw [List.filter_cons_of_neg (by simpa using hak),
          List.filter_cons_of_neg (by simpa using h2)]
        exact ih hnd' hk' hv
      · by_cases haka : a ∈ setAdd k visited
        · rcases (mem_setAdd a k visited).1 haka with rfl | hc
          · exact absurd hk' (List.nodup_cons.1 hnd).1
          · exact absurd hc hak
        · rw [List.filter_cons_of_pos (by simpa using hak),
            List.filter_cons_of_pos (by simpa using haka)]
          simp only [List.length_cons]
          rw [ih hnd' hk' hv]

theorem unvisitedCount_setAdd {K : Type} [DecidableEq K] {edges : List (K × List K)}
    {visited : List K} {k : K} (hnd : (keysOf edges).Nodup)
    (hk : k ∈ keysOf edges) (hv : k ∉ visited) :
    unvisitedCount edges visited = unvisitedCount edges (setAdd k visited) + 1 :=
  filter_length_setAdd visited k (keysOf edges) hnd hk hv

theorem filter_length_lt {K : Type} (p : K → Bool) :
    ∀ (ks : List K) (k : K), k ∈ ks → p k = false →
      (ks.filter p).length < ks.length := by
  intro ks
  induction ks with
  | nil => intro k hk; simp at hk
  | cons a rest ih =>
    intro k hk hp
    rcases List.mem_cons.1 hk with rfl | hk'
    · rw [List.filter_cons_of_neg (by simp [hp])]
      have := List.length_filter_le p rest
      simp only [List.length_cons]
      omega
    · by_cases hpa : p a = true
      · rw [List.filter_cons_of_pos hpa]
        have := ih k hk' hp
        simp only [List.length_cons]
        omega
      · rw [List.filter_cons_of_neg hpa]
        have := ih k hk' hp
        simp only [List.length_cons]
        omega

/-- Adding a key to the visited set leaves strictly fewer than all keys
unvisited. -/
theorem unvisitedCount_setAdd_lt {K : Type} [DecidableEq K] {edges : List (K × List K)}
    {v : List K} {k : K} (hk : k ∈ keysOf edges) :
    unvisitedCount edges (setAdd k v) < (keysOf edges).length := by
  unfold unvisitedCount
  refine filter_length_lt _ _ k hk ?_
  simp [self_mem_setAdd]

theorem DfsInv.initial {K : Type} [DecidableEq K] (edges : List (K × List K)) :
    DfsInv edges [] ⟨[], []⟩ := by
  constructor <;> simp

/-- The result of a `DfsInv` state is closed under reachability. -/
theorem DfsInv.reach {K : Type} [DecidableEq K] {edges : List (K × List K)} {stk : List K}
    {st : DfsState K} (hinv : DfsInv edges stk st) {d x : K} (hd : d ∈ st.result)
    (h : Relation.ReflTransGen (edgeStep edges) d x) : x ∈ st.result := by
  induction h with
  | refl => exact hd
  | tail _ hstep ih => exact hinv.resClosed _ ih _ hstep

/-- A cycle of the edge relation makes `ListBefore` of a `DfsInv` result
self-referential. -/
theorem DfsInv.transGen_before {K : Type} [DecidableEq K] {edges : List (K × List K)}
    {stk : List K} {st : DfsState K} (hinv : DfsInv edges stk st) {a b : K}
    (h : Relation.TransGen (edgeStep edges) a b) (ha : a ∈ st.result) :
    ListBefore st.result b a := by
  induction h with
  | single hstep => exact hinv.resOrdered _ ha _ hstep
  | tail _ hstep ih =>
    exact ListBefore.trans (hinv.resOrdered _ ih.1 _ hstep) ih

/-- No member of a `DfsInv` result lies on a cycle. -/
theorem DfsInv.no_cycle_mem {K : Type} [DecidableEq K] {edges : List (K × List K)}
    {stk : List K} {st : DfsState K} (hinv : DfsInv edges stk st) {n : K}
    (hn : n ∈ st.result) (h : Relation.TransGen (edgeStep edges) n n) : False :=
  (hinv.transGen_before h hn).irrefl

theorem dfsFoldFn_nil {K : Type} [DecidableEq K] (edges : List (K × List K))
    (visitFn : K → List K → DfsState K → Except (GraphErr K) (DfsState K))
    (stk : List K) (st : DfsState K) :
    dfsFoldFn edges visitFn [] stk st = .ok st := rfl

theorem dfsFoldFn_cons_cycle {K : Type} [DecidableEq K] {edges : List (K × List K)}
    {visitFn : K → List K → DfsState K → Except (GraphErr K) (DfsState K)}
    {n : K} {ns stk : List K} {st : DfsState K}
    (hvis : n ∈ st.visited) (hstk : n ∈ stk) :
    dfsFoldFn edges visitFn (n :: ns) stk st = .error (.cycle (stk ++ [n])) := by
  rw [dfsFoldFn]
  simp [hvis, hstk]

theorem dfsFoldFn_cons_skip {K : Type} [DecidableEq K] {edges : List (K × List K)}
    {visitFn : K → List K → DfsState K → Except (GraphErr K) (DfsState K)}
    {n : K} {ns stk : List K} {st : DfsState K}
    (hvis : n ∈ st.visited) (hstk : n ∉ stk) :
    dfsFoldFn edges visitFn (n :: ns) stk st = dfsFoldFn edges visitFn ns stk st := by
  rw [dfsFoldFn]
  simp [hvis, hstk]

theorem dfsFoldFn_cons_rec_ok {K : Type} [DecidableEq K] {edges : List (K × List K)}
    {visitFn : K → List K → DfsState K → Except (GraphErr K) (DfsState K)}
    {n : K} {ns stk : List K} {st st' : DfsState K} {es0 : List K}
    (hvis : n ∉ st.visited) (hget : assocGet n edges = some es0)
    (hv : visitFn n stk st = .ok st') :
    dfsFoldFn edges visitFn (n :: ns) stk st = dfsFoldFn edges visitFn ns stk st' := by
  rw [dfsFoldFn]
  simp [hvis, hget, hv]

theorem dfsFoldFn_cons_rec_err {K : Type} [DecidableEq K] {edges : List (K × List K)}
    {visitFn : K → List K → DfsState K → Except (GraphErr K) (DfsState K)}
    {n : K} {ns stk : List K} {st : DfsState K} {es0 : List K} {e : GraphErr K}
    (hvis : n ∉ st.visited) (hget : assocGet n edges = some es0)
    (hv : visitFn n stk st = .error e) :
    dfsFoldFn edges visitFn (n :: ns) stk st = .error e := by
  rw [dfsFoldFn]
  simp [hvis, hget, hv]

theorem dfsVisit_eq_ok {K : Type} [DecidableEq K] {edges : List (K × List K)}
    {fuel : Nat} {cur : K} {stk : List K} {st st2 : DfsState K} {es : List K}
    (hget : assocGet cur edges = some es)
    (hf : dfsFoldFn edges (dfsVisit edges false fuel) es (stk ++ [cur])
        { st with visited := setAdd cur st.visited } = .ok st2) :
    dfsVisit edges false (fuel + 1) cur stk st
      = if cur ∉ st2.result then .ok { st2 with result := st2.result ++ [cur] }
        else .ok st2 := by
  rw [dfsVisit]
  simp only [hget, hf]
  by_cases h : cur ∈ st2.result
  · simp [h]
  · simp [h]

theorem dfsVisit_eq_err {K : Type} [DecidableEq K] {edges : List (K × List K)}
    {fuel : Nat} {cur : K} {stk : List K} {st : DfsState K} {es : List K} {e : GraphErr K}
    (hget : assocGet cur edges = some es)
    (hf : dfsFoldFn edges (dfsVisit edges false fuel) es (stk ++ [cur])
        { st with visited := setAdd cur st.visited } = .error e) :
    dfsVisit edges false (fuel + 1) cur stk st = .error e := by
  rw [dfsVisit]
  simp only [hget, hf]

/-- The edge-iteration loop of `createDfs`, generically in the recursive
visit function: whenever `visitFn` satisfies the `dfs` contract one fuel
level down, the loop either succeeds — preserving the invariant, growing the
visited set, appending to the result, and placing every processed target in
the result — or throws a `GraphCycleError` whose path is a genuine cycle
witness.  In particular it never throws `NoSuchEdgeGraphError`. -/
theorem dfsFoldFn_main {K : Type} [DecidableEq K] (edges : List (K × List K))
    (hcl : EdgesClosed edges) (hnd : (keysOf edges).Nodup) (fuel : Nat)
    (visitFn : K → List K → DfsState K → Except (GraphErr K) (DfsState K))
    (hvisitFn : ∀ cur stk st, DfsInv edges stk st →
      cur ∈ keysOf edges →
      List.Chain' (edgeStep edges) (stk ++ [cur]) →
      unvisitedCount edges (setAdd cur st.visited) < fuel →
      (∃ st', visitFn cur stk st = .ok st' ∧ VisitOkPost edges stk st st' cur) ∨
      (∃ p, visitFn cur stk st = .error (.cycle p) ∧ CyclePath edges p)) :
    ∀ es stk st, DfsInv edges stk st →
      (∃ c, stk.getLast? = some c ∧ ∀ n ∈ es, edgeStep edges c n) →
      List.Chain' (edgeStep edges) stk →
      unvisitedCount edges st.visited ≤ fuel →
      (∃ st', dfsFoldFn edges visitFn es stk st = .ok st' ∧
        FoldOkPost edges stk st st' es) ∨
      (∃ p, dfsFoldFn edges visitFn es stk st = .error (.cycle p) ∧ CyclePath edges p) := by
  intro es
  induction es with
  | nil =>
    intro stk st hinv _ _ _
    exact Or.inl ⟨st, dfsFoldFn_nil _ _ _ _,
      hinv, fun x hx => hx, ⟨[], by simp⟩, by simp⟩
  | cons n ns ihns =>
    intro stk st hinv hlast hchain hfuel
    obtain ⟨c, hc, hcn⟩ := hlast
    have hEcn : edgeStep edges c n := hcn n (List.mem_cons_self _ _)
    have hlastns : ∃ c, stk.getLast? = some c ∧ ∀ m ∈ ns, edgeStep edges c m :=
      ⟨c, hc, fun m hm => hcn m (List.mem_cons_of_mem _ hm)⟩
    by_cases hvis : n ∈ st.visited
    · by_cases hstk : n ∈ stk
      · refine Or.inr ⟨stk ++ [n], dfsFoldFn_cons_cycle hvis hstk, ?_, stk, n, rfl, hstk⟩
        rw [List.chain'_append]
        refine ⟨hchain, List.chain'_singleton _, ?_⟩
        intro x hx y hy
        rw [hc] at hx
        simp only [Option.mem_def, Option.some.injEq, List.head?_cons] at hx hy
        subst hx; subst hy
        exact hEcn
      · have hres : n ∈ st.result := by
          rcases (hinv.visEq n).1 hvis with h | h
          · exact h
          · exact absurd h hstk
        rw [dfsFoldFn_cons_skip hvis hstk]
        rcases ihns stk st hinv hlastns hchain hfuel with
          ⟨st', heq, hpost⟩ | ⟨p, heq, hcp⟩
        · refine Or.inl ⟨st', heq, hpost.1, hpost.2.1, hpost.2.2.1, ?_⟩
          intro m hm
          rcases List.mem_cons.1 hm with rfl | hm'
          · obtain ⟨t, ht⟩ := hpost.2.2.1
            rw [ht]
            exact List.mem_append_left _ hres
          · exact hpost.2.2.2 m hm'
        · exact Or.inr ⟨p, heq, hcp⟩
    · have hkn : n ∈ keysOf edges := hcl c n hEcn
      obtain ⟨es0, hes0⟩ := Option.isSome_iff_exists.1 ((assocGet_isSome_iff _ _).2 hkn)
      have hpos : 1 ≤ unvisitedCount edges st.visited := unvisitedCount_pos hkn hvis
      have hchain2 : List.Chain' (edgeStep edges) (stk ++ [n]) := by
        rw [List.chain'_append]
        refine ⟨hchain, List.chain'_singleton _, ?_⟩
        intro x hx y hy
        rw [hc] at hx
        simp only [Option.mem_def, Option.some.injEq, List.head?_cons] at hx hy
        subst hx; subst hy
        exact hEcn
      have hcnt := unvisitedCount_setAdd hnd hkn hvis
      have hfuel2 : unvisitedCount edges (setAdd n st.visited) < fuel := by omega
      rcases hvisitFn n stk st hinv hkn hchain2 hfuel2 with
        ⟨st', heq, hpost⟩ | ⟨p, heq, hcp⟩
      · rw [dfsFoldFn_cons_rec_ok hvis hes0 heq]
        obtain ⟨hinv', hmono', hnvis', hpre', hnres'⟩ := hpost
        have hfuel3 : unvisitedCount edges st'.visited ≤ fuel := by
          have h1 : ∀ x ∈ setAdd n st.visited, x ∈ st'.visited := by
            intro x hx
            rcases (mem_setAdd x n st.visited).1 hx with rfl | hx'
            · exact hnvis'
            · exact hmono' x hx'
          have h2 := unvisitedCount_mono edges h1
          omega
        rcases ihns stk st' hinv' hlastns hchain hfuel3 with
          ⟨st'', heq2, hpost2⟩ | ⟨p, heq2, hcp2⟩
        · refine Or.inl ⟨st'', heq2, hpost2.1,
            fun x hx => hpost2.2.1 x (hmono' x hx), ?_, ?_⟩
          · obtain ⟨t1, ht1⟩ := hpre'
            obtain ⟨t2, ht2⟩ := hpost2.2.2.1
            exact ⟨t1 ++ t2, by rw [ht2, ht1, List.append_assoc]⟩
          · intro m hm
            rcases List.mem_cons.1 hm with rfl | hm'
            · obtain ⟨t2, ht2⟩ := hpost2.2.2.1
              rw [ht2]
              exact List.mem_append_left _ hnres'
            · exact hpost2.2.2.2 m hm'
        · exact Or.inr ⟨p, heq2, hcp2⟩
      · rw [dfsFoldFn_cons_rec_err hvis hes0 heq]
        exact Or.inr ⟨p, rfl, hcp⟩

/-- The central theorem about one `dfs` invocation: under a closed,
duplicate-free edge map, with the invariant holding, the extended stack
forming an edge-chain and the fuel exceeding the number of unvisited keys,
the invocation either succeeds — preserving the invariant, growing the
visited set, appending to the result, with the visited node in the result —
or throws a `GraphCycleError` carrying a genuine cycle witness.  It never
throws `NoSuchEdgeGraphError` and never exhausts the fuel. -/
theorem dfsVisit_main {K : Type} [DecidableEq K] (edges : List (K × List K))
    (hcl : EdgesClosed edges) (hnd : (keysOf edges).Nodup) :
    ∀ (fuel : Nat) (cur : K) (stk : List K) (st : DfsState K), DfsInv edges stk st →
      cur ∈ keysOf edges →
      List.Chain' (edgeStep edges) (stk ++ [cur]) →
      unvisitedCount edges (setAdd cur st.visited) < fuel →
      (∃ st', dfsVisit edges false fuel cur stk st = .ok st' ∧
        VisitOkPost edges stk st st' cur) ∨
      (∃ p, dfsVisit edges false fuel cur stk st = .error (.cycle p) ∧ CyclePath edges p) := by
  intro fuel
  induction fuel with
  | zero =>
    intro cur stk st _ _ _ hfuel
    exact absurd hfuel (by omega)
  | succ fuel IH =>
    intro cur stk st hinv hkcur hchain hfuel
    have hfold := dfsFoldFn_main edges hcl hnd fuel (dfsVisit edges false fuel) IH
    obtain ⟨es, hes⟩ := Option.isSome_iff_exists.1 ((assocGet_isSome_iff _ _).2 hkcur)
    have hinv1 : DfsInv edges (stk ++ [cur]) ⟨setAdd cur st.visited, st.result⟩ := by
      constructor
      · intro x
        show x ∈ setAdd cur st.visited ↔ x ∈ st.result ∨ x ∈ stk ++ [cur]
        rw [mem_setAdd, hinv.visEq x]
        simp only [List.mem_append, List.mem_singleton]
        tauto
      · exact hinv.resClosed
      · exact hinv.resOrdered
      · exact hinv.resNodup
      · exact hinv.resKeys
    have hlast1 : ∃ c, (stk ++ [cur]).getLast? = some c ∧ ∀ n ∈ es, edgeStep edges c n := by
      refine ⟨cur, List.getLast?_concat _, ?_⟩
      intro n hn
      unfold edgeStep
      rw [hes]
      simpa using hn
    rcases hfold es (stk ++ [cur]) ⟨setAdd cur st.visited, st.result⟩ hinv1 hlast1 hchain
        (show unvisitedCount edges (setAdd cur st.visited) ≤ fuel by omega) with
      ⟨st2, heq2, hpost2⟩ | ⟨p, heq2, hcp⟩
    · rw [dfsVisit_eq_ok hes heq2]
      obtain ⟨hinv2, hmono2, ⟨t, ht⟩, hes2⟩ := hpost2
      have hmono0 : ∀ x ∈ st.visited, x ∈ st2.visited :=
        fun x hx => hmono2 x (subset_setAdd _ _ _ hx)
      have hcvis : cur ∈ st2.visited := hmono2 cur (self_mem_setAdd _ _)
      by_cases hcur2 : cur ∈ st2.result
      · rw [if_neg (not_not_intro hcur2)]
        refine Or.inl ⟨st2, rfl, ?_, hmono0, hcvis, ⟨t, ht⟩, hcur2⟩
        constructor
        · intro x
          rw [hinv2.visEq x]
          simp only [List.mem_append, List.mem_singleton]
          constructor
          · rintro (h | h | rfl)
            · exact Or.inl h
            · exact Or.inr h
            · exact Or.inl hcur2
          · rintro (h | h)
            · exact Or.inl h
            · exact Or.inr (Or.inl h)
        · exact hinv2.resClosed
        · exact hinv2.resOrdered
        · exact hinv2.resNodup
        · exact hinv2.resKeys
      · rw [if_pos hcur2]
        have hstep_cur : ∀ b, edgeStep edges cur b → b ∈ st2.result := by
          intro b hb
          unfold edgeStep at hb
          rw [hes] at hb
          exact hes2 b (by simpa using hb)
        refine Or.inl ⟨⟨st2.visited, st2.result ++ [cur]⟩, rfl, ?_, hmono0, hcvis,
          ⟨t ++ [cur], by rw [ht, List.append_assoc]⟩, by simp⟩
        constructor
        · intro x
          show x ∈ st2.visited ↔ x ∈ st2.result ++ [cur] ∨ x ∈ stk
          rw [hinv2.visEq x]
          simp only [List.mem_append, List.mem_singleton]
          tauto
        · intro d hd b hb
          show b ∈ st2.result ++ [cur]
          rcases List.mem_append.1 hd with hd' | hd'
          · exact List.mem_append_left _ (hinv2.resClosed d hd' b hb)
          · rw [List.mem_singleton] at hd'
            subst hd'
            exact List.mem_append_left _ (hstep_cur b hb)
        · intro d hd b hb
          rcases List.mem_append.1 hd with hd' | hd'
          · exact ListBefore.append_left _ (hinv2.resOrdered d hd' b hb)
          · rw [List.mem_singleton] at hd'
            subst hd'
            exact ListBefore.append_last (hstep_cur b hb) hcur2
        · rw [List.nodup_append]
          refine ⟨hinv2.resNodup, List.nodup_singleton _, ?_⟩
          intro x hx hx'
          rw [List.mem_singleton] at hx'
          subst hx'
          exact hcur2 hx
        · intro x hx
          rcases List.mem_append.1 hx with hx' | hx'
          · exact hinv2.resKeys x hx'
          · rw [List.mem_singleton] at hx'
            subst hx'
            exact hkcur
    · rw [dfsVisit_eq_err hes heq2]
      exact Or.inr ⟨p, rfl, hcp⟩

theorem nodeKeys_eq {K V : Type} (g : Graph K V) :
    nodeKeys g = g.nodes.map Prod.fst := rfl

theorem edgeStep_tgt_mem {K : Type} [DecidableEq K] {edges : List (K × List K)}
    {tgts : List K} {a b : K} (h : edgeStep edges a b)
    (hsub : ∀ p ∈ edges, ∀ x ∈ p.2, x ∈ tgts) : b ∈ tgts := by
  unfold edgeStep at h
  cases hg : assocGet a edges with
  | none => rw [hg] at h; simp at h
  | some es =>
    rw [hg] at h
    exact hsub (a, es) (assocGet_mem hg) b (by simpa using h)

theorem WellFormed.closed_out {K V : Type} [DecidableEq K] {g : Graph K V}
    (hwf : WellFormed g) : EdgesClosed g.outgoingEdges := by
  intro a b h
  rw [hwf.2.1]
  exact edgeStep_tgt_mem h hwf.2.2.2.1

theorem WellFormed.closed_inc {K V : Type} [DecidableEq K] {g : Graph K V}
    (hwf : WellFormed g) : EdgesClosed g.incomingEdges := by
  intro a b h
  rw [hwf.1]
  exact edgeStep_tgt_mem h hwf.2.2.2.2.1

theorem WellFormed.nodup_out {K V : Type} [DecidableEq K] {g : Graph K V}
    (hwf : WellFormed g) : (keysOf g.outgoingEdges).Nodup := by
  rw [hwf.2.1]; exact hwf.2.2.1

theorem WellFormed.nodup_inc {K V : Type} [DecidableEq K] {g : Graph K V}
    (hwf : WellFormed g) : (keysOf g.incomingEdges).Nodup := by
  rw [hwf.1]; exact hwf.2.2.1

theorem WellFormed.len_out {K V : Type} [DecidableEq K] {g : Graph K V}
    (hwf : WellFormed g) : (keysOf g.outgoingEdges).length = g.nodes.length := by
  rw [hwf.2.1]; exact List.length_map _ _

theorem WellFormed.len_inc {K V : Type} [DecidableEq K] {g : Graph K V}
    (hwf : WellFormed g) : (keysOf g.incomingEdges).length = g.nodes.length := by
  rw [hwf.1]; exact List.length_map _ _

/-- One step backwards along an incoming edge is one forward outgoing step. -/
theorem WellFormed.inc_of_out {K V : Type} [DecidableEq K] {g : Graph K V}
    (hwf : WellFormed g) {a b : K} (h : edgeStep g.outgoingEdges a b) :
    edgeStep g.incomingEdges b a := by
  have ha : a ∈ nodeKeys g := by
    have := edgeStep_src_mem h
    rwa [hwf.2.1] at this
  have hb : b ∈ nodeKeys g := by
    rw [← hwf.2.1]
    exact hwf.closed_out a b h
  exact (hwf.2.2.2.2.2 a ha b hb).1 h

/-- An outgoing-edge cycle reverses to an incoming-edge cycle. -/
theorem WellFormed.transGen_inc_of_out {K V : Type} [DecidableEq K] {g : Graph K V}
    (hwf : WellFormed g) {a b : K}
    (h : Relation.TransGen (edgeStep g.outgoingEdges) a b) :
    Relation.TransGen (edgeStep g.incomingEdges) b a := by
  induction h with
  | single hstep => exact Relation.TransGen.single (hwf.inc_of_out hstep)
  | tail _ hstep ih => exact Relation.TransGen.head (hwf.inc_of_out hstep) ih

/-- In a well-formed acyclic graph every node is reachable along outgoing
edges from some root (a node whose incoming edge set is empty). -/
theorem exists_root_path {K V : Type} [DecidableEq K] {g : Graph K V}
    (hwf : WellFormed g) (hac : g.AcyclicOut) :
    ∀ k ∈ nodeKeys g, ∃ r, r ∈ nodeKeys g ∧ (assocGet r g.incomingEdges).getD [] = [] ∧
      Relation.ReflTransGen (edgeStep g.outgoingEdges) r k := by
  have hfin : Finite {x // x ∈ nodeKeys g} := (List.finite_toSet _).to_subtype
  let rel := fun (a b : {x // x ∈ nodeKeys g}) =>
    Relation.TransGen (edgeStep g.outgoingEdges) a.1 b.1
  haveI : IsTrans {x // x ∈ nodeKeys g} rel := ⟨fun _ _ _ hab hbc => hab.trans hbc⟩
  haveI : IsIrrefl {x // x ∈ nodeKeys g} rel := ⟨fun a ha => hac a.1 ha⟩
  have hwfd : WellFounded rel := Finite.wellFounded_of_trans_of_irrefl rel
  intro k hk
  have main : ∀ x : {x // x ∈ nodeKeys g},
      ∃ r, r ∈ nodeKeys g ∧ (assocGet r g.incomingEdges).getD [] = [] ∧
        Relation.ReflTransGen (edgeStep g.outgoingEdges) r x.1 := by
    intro x
    induction x using hwfd.induction with
    | _ x IHx =>
      by_cases hroot : (assocGet x.1 g.incomingEdges).getD [] = []
      · exact ⟨x.1, x.2, hroot, Relation.ReflTransGen.refl⟩
      · obtain ⟨d, hd⟩ := List.exists_mem_of_ne_nil _ hroot
        have hstep_inc : edgeStep g.incomingEdges x.1 d := hd
        have hdk : d ∈ nodeKeys g := by
          have := edgeStep_tgt_mem hstep_inc hwf.2.2.2.2.1
          exact this
        have hstep_out : edgeStep g.outgoingEdges d x.1 :=
          (hwf.2.2.2.2.2 d hdk x.1 x.2).2 hstep_inc
        obtain ⟨r, hr1, hr2, hr3⟩ :=
          IHx ⟨d, hdk⟩ (Relation.TransGen.single hstep_out)
        exact ⟨r, hr1, hr2, hr3.tail hstep_out⟩
  exact main ⟨k, hk⟩

/-! ## Behaviour of the top-level DFS loops and `overallOrder` -/

theorem dfsTopFold_nil {K : Type} [DecidableEq K] (edges : List (K × List K)) (lo : Bool)
    (fuel : Nat) (st : DfsState K) : dfsTopFold edges lo fuel [] st = .ok st := rfl

theorem dfsTopFold_cons_ok {K : Type} [DecidableEq K] {edges : List (K × List K)} {lo : Bool}
    {fuel : Nat} {k : K} {ks : List K} {st st' : DfsState K}
    (hv : dfsVisit edges lo fuel k [] st = .ok st') :
    dfsTopFold edges lo fuel (k :: ks) st = dfsTopFold edges lo fuel ks st' := by
  rw [dfsTopFold, hv]

theorem dfsTopFold_cons_err {K : Type} [DecidableEq K] {edges : List (K × List K)} {lo : Bool}
    {fuel : Nat} {k : K} {ks : List K} {st : DfsState K} {e : GraphErr K}
    (hv : dfsVisit edges lo fuel k [] st = .error e) :
    dfsTopFold edges lo fuel (k :: ks) st = .error e := by
  rw [dfsTopFold, hv]

/-- Iterating the shared DFS over a list of keys either succeeds — every
start key ends up in the result, with the invariant preserved — or throws a
genuine cycle error. -/
theorem dfsTopFold_main {K : Type} [DecidableEq K] (edges : List (K × List K))
    (hcl : EdgesClosed edges) (hnd : (keysOf edges).Nodup) (fuel : Nat)
    (hfuel : (keysOf edges).length ≤ fuel) :
    ∀ ks st, DfsInv edges [] st → (∀ k ∈ ks, k ∈ keysOf edges) →
      (∃ st', dfsTopFold edges false fuel ks st = .ok st' ∧ DfsInv edges [] st' ∧
        (∀ x ∈ st.visited, x ∈ st'.visited) ∧ (∃ t, st'.result = st.result ++ t) ∧
        (∀ k ∈ ks, k ∈ st'.result)) ∨
      (∃ p, dfsTopFold edges false fuel ks st = .error (.cycle p) ∧ CyclePath edges p) := by
  intro ks
  induction ks with
  | nil =>
    intro st hinv _
    exact Or.inl ⟨st, dfsTopFold_nil _ _ _ _, hinv, fun x hx => hx, ⟨[], by simp⟩, by simp⟩
  | cons k ks ih =>
    intro st hinv hks
    have hk : k ∈ keysOf edges := hks k (List.mem_cons_self _ _)
    have hchain : List.Chain' (edgeStep edges) ([] ++ [k]) := by
      simp [List.chain'_singleton]
    have hfuelk : unvisitedCount edges (setAdd k st.visited) < fuel :=
      lt_of_lt_of_le (unvisitedCount_setAdd_lt hk) hfuel
    rcases dfsVisit_main edges hcl hnd fuel k [] st hinv hk hchain hfuelk with
      ⟨st', heq, hpost⟩ | ⟨p, heq, hcp⟩
    · obtain ⟨hinv', hmono', _, ⟨t1, ht1⟩, hkres'⟩ := hpost
      rcases ih st' hinv' (fun x hx => hks x (List.mem_cons_of_mem _ hx)) with
        ⟨st'', heq2, hinv'', hmono'', ⟨t2, ht2⟩, hres''⟩ | ⟨p, heq2, hcp2⟩
      · rw [dfsTopFold_cons_ok heq]
        refine Or.inl ⟨st'', heq2, hinv'', fun x hx => hmono'' x (hmono' x hx),
          ⟨t1 ++ t2, by rw [ht2, ht1, List.append_assoc]⟩, ?_⟩
        intro m hm
        rcases List.mem_cons.1 hm with rfl | hm'
        · rw [ht2]
          exact List.mem_append_left _ hkres'
        · exact hres'' m hm'
      · rw [dfsTopFold_cons_ok heq]
        exact Or.inr ⟨p, heq2, hcp2⟩
    · rw [dfsTopFold_cons_err heq]
      exact Or.inr ⟨p, rfl, hcp⟩

/-- The root filter of `overallOrder` succeeds when every key has an incoming
entry, returning exactly the keys with an empty incoming edge set. -/
theorem filterRoots_eq {K : Type} [DecidableEq K] (inc : List (K × List K)) :
    ∀ l : List K, (∀ n ∈ l, (assocGet n inc).isSome) →
      filterRoots inc l
        = .ok (l.filter (fun n => decide ((assocGet n inc).getD [] = []))) := by
  intro l
  induction l with
  | nil => intro _; rfl
  | cons n ns ih =>
    intro h
    obtain ⟨ie, hie⟩ := Option.isSome_iff_exists.1 (h n (List.mem_cons_self _ _))
    have hrest := ih (fun x hx => h x (List.mem_cons_of_mem _ hx))
    rw [filterRoots, hie, hrest]
    by_cases hnil : ie = []
    · rw [List.filter_cons_of_pos (by simp [hie, hnil])]
      simp [hnil]
    · rw [List.filter_cons_of_neg (by simp [hie, hnil])]
      simp [hnil]

theorem overallOrder_ok_eq {K V : Type} [DecidableEq K] (g : Graph K V)
    (hne : g.nodes.isEmpty = false) {stc : DfsState K}
    (h1 : dfsTopFold g.outgoingEdges false g.nodes.length (g.nodes.map Prod.fst)
        ⟨[], []⟩ = .ok stc)
    {roots : List K}
    (h2 : filterRoots g.incomingEdges (g.nodes.map Prod.fst) = .ok roots)
    {sto : DfsState K}
    (h3 : dfsTopFold g.outgoingEdges false g.nodes.length roots ⟨[], []⟩ = .ok sto) :
    g.overallOrder false = .ok sto.result := by
  unfold Graph.overallOrder
  simp [hne, h1, h2, h3]

theorem overallOrder_err_eq {K V : Type} [DecidableEq K] (g : Graph K V)
    (hne : g.nodes.isEmpty = false) {e : GraphErr K}
    (h1 : dfsTopFold g.outgoingEdges false g.nodes.length (g.nodes.map Prod.fst)
        ⟨[], []⟩ = .error e) :
    g.overallOrder false = .error e := by
  unfold Graph.overallOrder
  simp [hne, h1]

/-- For every well-formed acyclic graph, `overallOrder()` succeeds with a
duplicate-free enumeration of exactly the graph's nodes in which the target
of each recorded dependency edge appears strictly before its source: after
`addDependency(d, n)` (that is, `n` depends on `d`), `n` precedes `d`. -/
theorem overallOrder_acyclic {K V : Type} [DecidableEq K] (g : Graph K V)
    (hwf : WellFormed g) (hac : g.AcyclicOut) :
    ∃ order, g.overallOrder false = .ok order ∧ order.Nodup ∧
      (∀ k, k ∈ order ↔ k ∈ nodeKeys g) ∧
      (∀ d n, edgeStep g.outgoingEdges d n → ListBefore order n d) := by
  by_cases hne : g.nodes.isEmpty
  · have hnil : g.nodes = [] := List.isEmpty_iff.1 hne
    refine ⟨[], ?_, List.nodup_nil, ?_, ?_⟩
    · unfold Graph.overallOrder
      simp [hne]
    · intro k
      simp [nodeKeys, hnil]
    · intro d n h
      have := edgeStep_src_mem h
      rw [hwf.2.1] at this
      simp [nodeKeys, hnil] at this
  · have hne' : g.nodes.isEmpty = false := by simpa using hne
    have hcl := hwf.closed_out
    have hnd := hwf.nodup_out
    have hfuel : (keysOf g.outgoingEdges).length ≤ g.nodes.length := le_of_eq hwf.len_out
    have hkeys : ∀ k ∈ g.nodes.map Prod.fst, k ∈ keysOf g.outgoingEdges := by
      intro k hk
      rw [hwf.2.1]
      exact hk
    have hnocycle : ∀ p, ¬ CyclePath g.outgoingEdges p := by
      intro p hp
      obtain ⟨x, hx⟩ := cyclePath_transGen hp
      exact hac x hx
    rcases dfsTopFold_main g.outgoingEdges hcl hnd g.nodes.length hfuel
        (g.nodes.map Prod.fst) ⟨[], []⟩ (DfsInv.initial _) hkeys with
      ⟨stc, h1, _⟩ | ⟨p, _, hcp⟩
    swap
    · exact absurd hcp (hnocycle p)
    have hincsome : ∀ n ∈ g.nodes.map Prod.fst, (assocGet n g.incomingEdges).isSome := by
      intro n hn
      rw [assocGet_isSome_iff, ← keysOf_eq, hwf.1, nodeKeys_eq]
      exact hn
    have h2 := filterRoots_eq g.incomingEdges (g.nodes.map Prod.fst) hincsome
    have hroots : ∀ r ∈ (g.nodes.map Prod.fst).filter
        (fun n => decide ((assocGet n g.incomingEdges).getD [] = [])),
        r ∈ keysOf g.outgoingEdges := by
      intro r hr
      rw [hwf.2.1]
      exact (List.mem_filter.1 hr).1
    rcases dfsTopFold_main g.outgoingEdges hcl hnd g.nodes.length hfuel
        ((g.nodes.map Prod.fst).filter
          (fun n => decide ((assocGet n g.incomingEdges).getD [] = [])))
        ⟨[], []⟩ (DfsInv.initial _) hroots with
      ⟨sto, h3, hinv, _, _, hrootsres⟩ | ⟨p, _, hcp⟩
    swap
    · exact absurd hcp (hnocycle p)
    refine ⟨sto.result, overallOrder_ok_eq g hne' h1 h2 h3, hinv.resNodup, ?_, ?_⟩
    · intro k
      constructor
      · intro hk
        have := hinv.resKeys k hk
        rwa [hwf.2.1] at this
      · intro hk
        obtain ⟨r, hr1, hr2, hr3⟩ := exists_root_path hwf hac k hk
        have hrres : r ∈ sto.result := by
          refine hrootsres r (List.mem_filter.2 ⟨hr1, by simp [hr2]⟩)
        exact hinv.reach hrres hr3
    · intro d n h
      have hd : d ∈ sto.result := by
        have hdk := edgeStep_src_mem h
        rw [hwf.2.1] at hdk
        obtain ⟨r, hr1, hr2, hr3⟩ := exists_root_path hwf hac d hdk
        have hrres : r ∈ sto.result :=
          hrootsres r (List.mem_filter.2 ⟨hr1, by simp [hr2]⟩)
        exact hinv.reach hrres hr3
      exact hinv.resOrdered d hd n h

/-- For every well-formed graph containing a cycle (anywhere, reachable from
a root or not), `overallOrder()` throws a `GraphCycleError` whose path is an
edge-chain ending in a repetition of an earlier node — the pre-pass cycle
check over the whole graph fires before any order is produced. -/
theorem overallOrder_hasCycle {K V : Type} [DecidableEq K] (g : Graph K V)
    (hwf : WellFormed g) {n : K}
    (hcyc : Relation.TransGen (edgeStep g.outgoingEdges) n n) :
    ∃ p, g.overallOrder false = .error (.cycle p) ∧ CyclePath g.outgoingEdges p := by
  have hn : n ∈ keysOf g.outgoingEdges := by
    obtain ⟨b, hb, -⟩ := Relation.TransGen.head'_iff.1 hcyc
    exact edgeStep_src_mem hb
  have hmemn : n ∈ g.nodes.map Prod.fst := by
    rw [← nodeKeys_eq, ← hwf.2.1]
    exact hn
  have hne' : g.nodes.isEmpty = false := by
    cases hg : g.nodes with
    | nil => rw [hg] at hmemn; simp at hmemn
    | cons p rest => rfl
  have hcl := hwf.closed_out
  have hnd := hwf.nodup_out
  have hfuel : (keysOf g.outgoingEdges).length ≤ g.nodes.length := le_of_eq hwf.len_out
  have hkeys : ∀ k ∈ g.nodes.map Prod.fst, k ∈ keysOf g.outgoingEdges := by
    intro k hk
    rw [hwf.2.1]
    exact hk
  rcases dfsTopFold_main g.outgoingEdges hcl hnd g.nodes.length hfuel
      (g.nodes.map Prod.fst) ⟨[], []⟩ (DfsInv.initial _) hkeys with
    ⟨stc, h1, hinv, _, _, hall⟩ | ⟨p, h1, hcp⟩
  · exfalso
    have hnres : n ∈ stc.result := hall n hmemn
    exact hinv.no_cycle_mem hnres hcyc
  · exact ⟨p, overallOrder_err_eq g hne' h1, hcp⟩

theorem dependenciesOf_err_eq {K V : Type} [DecidableEq K] (g : Graph K V) {node : K}
    (hnode : (assocGet node g.nodes).isSome = true) {e : GraphErr K}
    (hv : dfsVisit g.outgoingEdges false g.nodes.length node [] ⟨[], []⟩ = .error e) :
    g.dependenciesOf node false = .error e := by
  unfold Graph.dependenciesOf
  simp [hnode, hv]

theorem dependantsOf_err_eq {K V : Type} [DecidableEq K] (g : Graph K V) {node : K}
    (hnode : (assocGet node g.nodes).isSome = true) {e : GraphErr K}
    (hv : dfsVisit g.incomingEdges false g.nodes.length node [] ⟨[], []⟩ = .error e) :
    g.dependantsOf node false = .error e := by
  unfold Graph.dependantsOf
  simp [hnode, hv]

/-- A single `dfs` run from a node lying on a cycle throws a cycle error
with a genuine cycle path (shared helper for `dependenciesOf` and
`dependantsOf`). -/
theorem dfsVisit_on_cycle_member {K : Type} [DecidableEq K] (edges : List (K × List K))
    (hcl : EdgesClosed edges) (hnd : (keysOf edges).Nodup) {n : K} (fuel : Nat)
    (hfuel : (keysOf edges).length ≤ fuel)
    (hcyc : Relation.TransGen (edgeStep edges) n n) :
    ∃ p, dfsVisit edges false fuel n [] ⟨[], []⟩ = .error (.cycle p) ∧
      CyclePath edges p := by
  have hn : n ∈ keysOf edges := by
    obtain ⟨b, hb, -⟩ := Relation.TransGen.head'_iff.1 hcyc
    exact edgeStep_src_mem hb
  have hchain : List.Chain' (edgeStep edges) ([] ++ [n]) := by
    simp [List.chain'_singleton]
  have hfueln : unvisitedCount edges (setAdd n ([] : List K)) < fuel :=
    lt_of_lt_of_le (unvisitedCount_setAdd_lt hn) hfuel
  rcases dfsVisit_main edges hcl hnd fuel n [] ⟨[], []⟩ (DfsInv.initial _) hn hchain hfueln with
    ⟨st', _, hpost⟩ | ⟨p, heq, hcp⟩
  · exact absurd hcyc (fun hc => hpost.1.no_cycle_mem hpost.2.2.2.2 hc)
  · exact ⟨p, heq, hcp⟩

/-- `dependenciesOf` on a member of an outgoing-edge cycle throws the cycle
error with a genuine cycle path. -/
theorem dependenciesOf_cycle {K V : Type} [DecidableEq K] (g : Graph K V)
    (hwf : WellFormed g) {n : K}
    (hcyc : Relation.TransGen (edgeStep g.outgoingEdges) n n) :
    ∃ p, g.dependenciesOf n false = .error (.cycle p) ∧ CyclePath g.outgoingEdges p := by
  have hn : n ∈ keysOf g.outgoingEdges := by
    obtain ⟨b, hb, -⟩ := Relation.TransGen.head'_iff.1 hcyc
    exact edgeStep_src_mem hb
  have hnode : (assocGet n g.nodes).isSome = true := by
    rw [assocGet_isSome_iff, ← nodeKeys_eq, ← hwf.2.1]
    exact hn
  obtain ⟨p, heq, hcp⟩ := dfsVisit_on_cycle_member g.outgoingEdges hwf.closed_out
    hwf.nodup_out g.nodes.length (le_of_eq hwf.len_out) hcyc
  exact ⟨p, dependenciesOf_err_eq g hnode heq, hcp⟩

/-- `dependantsOf` on a member of a dependency cycle throws the cycle error
with a genuine cycle path over the incoming edges (the reversed cycle). -/
theorem dependantsOf_cycle {K V : Type} [DecidableEq K] (g : Graph K V)
    (hwf : WellFormed g) {n : K}
    (hcyc : Relation.TransGen (edgeStep g.outgoingEdges) n n) :
    ∃ p, g.dependantsOf n false = .error (.cycle p) ∧ CyclePath g.incomingEdges p := by
  have hcyc' : Relation.TransGen (edgeStep g.incomingEdges) n n :=
    hwf.transGen_inc_of_out hcyc
  have hn : n ∈ keysOf g.incomingEdges := by
    obtain ⟨b, hb, -⟩ := Relation.TransGen.head'_iff.1 hcyc'
    exact edgeStep_src_mem hb
  have hnode : (assocGet n g.nodes).isSome = true := by
    rw [assocGet_isSome_iff, ← nodeKeys_eq, ← hwf.1]
    exact hn
  obtain ⟨p, heq, hcp⟩ := dfsVisit_on_cycle_member g.incomingEdges hwf.closed_inc
    hwf.nodup_inc g.nodes.length (le_of_eq hwf.len_inc) hcyc'
  exact ⟨p, dependantsOf_err_eq g hnode heq, hcp⟩

/-- Acyclicity follows from any rank function that strictly decreases along
every recorded outgoing edge (usable by `decide` on concrete graphs). -/
theorem acyclicOut_of_ranks {K V : Type} [DecidableEq K] (g : Graph K V) (f : K → Nat)
    (h : ∀ p ∈ g.outgoingEdges, ∀ b ∈ p.2, f b < f p.1) : g.AcyclicOut := by
  have hstep : ∀ a b, edgeStep g.outgoingEdges a b → f b < f a := by
    intro a b hab
    unfold edgeStep at hab
    cases hg : assocGet a g.outgoingEdges with
    | none => rw [hg] at hab; simp at hab
    | some es =>
      rw [hg] at hab
      exact h (a, es) (assocGet_mem hg) b (by simpa using hab)
  have hlt : ∀ a b, Relation.TransGen (edgeStep g.outgoingEdges) a b → f b < f a := by
    intro a b hab
    induction hab with
    | single hs => exact hstep _ _ hs
    | tail _ hs ih => exact lt_trans (hstep _ _ hs) ih
  intro n hn
  exact absurd (hlt n n hn) (lt_irrefl _)

/-! ## Claim C1 -/

/-- C1, counterexample.  The claim states that after `addDependency(d, n)`
(`n` depends on `d`), `d` precedes `n` in `overallOrder()`.  On the graph
built by `addNode(0); addNode(1); addDependency(0, 1)` the code returns the
order `[1, 0]`: the dependant `1` comes first and `0` does *not* precede `1`.
(The DFS appends a node to the result only after all its dependants, so the
returned order is dependants-first.) -/
theorem claim_C1_counterexample :
    (((Graph.empty.addNode 0 (none : Option Unit)).addNode 1 none).addDependency 0 1)
        = .ok pairGraph
    ∧ pairGraph.overallOrder false = .ok [1, 0]
    ∧ ¬ ListBefore [1, 0] 0 1 := by
  decide

/-- C1 (amended).  For every well-formed acyclic graph, `overallOrder()`
(with `leavesOnly` false) returns an ordering of all nodes such that each
field appears only *before* all fields that depend on it: whenever
`addDependency(d, n)` was called (`n` depends on `d`), `n` precedes `d` in
the returned insertion-ordered set. -/
theorem claim_C1 {K V : Type} [DecidableEq K] (g : Graph K V)
    (hwf : WellFormed g) (hac : g.AcyclicOut) :
    ∃ order, g.overallOrder false = .ok order ∧ order.Nodup ∧
      (∀ k, k ∈ order ↔ k ∈ nodeKeys g) ∧
      (∀ d n, edgeStep g.outgoingEdges d n → ListBefore order n d) :=
  overallOrder_acyclic g hwf hac

/-- C1, witness: the amended claim applied to the concrete two-field graph. -/
theorem claim_C1_witness :
    ∃ order, pairGraph.overallOrder false = .ok order ∧ order.Nodup ∧
      (∀ k, k ∈ order ↔ k ∈ nodeKeys pairGraph) ∧
      (∀ d n, edgeStep pairGraph.outgoingEdges d n → ListBefore order n d) :=
  claim_C1 pairGraph (by decide)
    (acyclicOut_of_ranks pairGraph (fun k => 2 - k) (by decide))

/-! ## Claim C3 -/

/-- C3.  For every well-formed graph containing a cycle, `overallOrder()`
throws the cycle error, and `dependenciesOf`/`dependantsOf` called on a cycle
member throw it too, the error carrying the DFS path: an edge-chain ending in
a repetition of a node occurring earlier in it.  Concretely, the cycle
`a → b → c → a` (as `0 → 1 → 2 → 0`) yields path `[a, b, c, a]` from both
`overallOrder()` and `dependenciesOf(a)` (and the reversed walk
`[a, c, b, a]` from `dependantsOf(a)`, whose DFS runs over incoming edges);
`overallOrder` fails even when no cycle node is a root, because of its
whole-graph pre-pass check. -/
theorem claim_C3 :
    (∀ (K V : Type) [DecidableEq K] (g : Graph K V) (n : K),
      WellFormed g → Relation.TransGen (edgeStep g.outgoingEdges) n n →
      (∃ p, g.overallOrder false = .error (.cycle p) ∧ CyclePath g.outgoingEdges p) ∧
      (∃ p, g.dependenciesOf n false = .error (.cycle p) ∧ CyclePath g.outgoingEdges p) ∧
      (∃ p, g.dependantsOf n false = .error (.cycle p) ∧ CyclePath g.incomingEdges p))
    ∧ triGraph.overallOrder false = .error (.cycle [0, 1, 2, 0])
    ∧ triGraph.dependenciesOf 0 false = .error (.cycle [0, 1, 2, 0])
    ∧ triGraph.dependantsOf 0 false = .error (.cycle [0, 2, 1, 0])
    ∧ rootCycGraph.overallOrder false = .error (.cycle [1, 2, 3, 1]) := by
  refine ⟨?_, by decide, by decide, by decide, by decide⟩
  intro K V _ g n hwf hcyc
  exact ⟨overallOrder_hasCycle g hwf hcyc, dependenciesOf_cycle g hwf hcyc,
    dependantsOf_cycle g hwf hcyc⟩

/-! ## Association-list update lemmas -/

theorem assocGet_assocSet_self {K V : Type} [DecidableEq K] (k : K) (v : V) :
    ∀ l : List (K × V), assocGet k (assocSet k v l) = some v := by
  intro l
  induction l with
  | nil => simp [assocGet, assocSet]
  | cons p rest ih =>
    obtain ⟨a, b⟩ := p
    by_cases h : k = a
    · simp [assocSet, assocGet, h]
    · simp [assocSet, assocGet, h, ih]

theorem assocGet_assocSet_other {K V : Type} [DecidableEq K] {k k' : K} (v : V)
    (h : k' ≠ k) : ∀ l : List (K × V), assocGet k' (assocSet k v l) = assocGet k' l := by
  intro l
  induction l with
  | nil => simp [assocGet, assocSet, h]
  | cons p rest ih =>
    obtain ⟨a, b⟩ := p
    by_cases ha : k = a
    · subst ha
      simp [assocSet, assocGet, h]
    · by_cases hb : k' = a <;> simp [assocSet, assocGet, ha, hb, ih]

theorem assocGet_append {K V : Type} [DecidableEq K] (k : K) :
    ∀ l l2 : List (K × V), assocGet k (l ++ l2)
      = match assocGet k l with
        | some v => some v
        | none => assocGet k l2 := by
  intro l l2
  induction l with
  | nil => simp [assocGet]
  | cons p rest ih =>
    obtain ⟨a, b⟩ := p
    by_cases h : k = a <;> simp [assocGet, h, ih]

theorem aggAdd_get_self (errors : List (String × List VErr)) (key : String) (e : VErr) :
    assocGet key (aggAdd errors key e) = some ((assocGet key errors).getD [] ++ [e]) := by
  unfold aggAdd
  cases h : assocGet key errors with
  | some es => simp [assocGet_assocSet_self]
  | none =>
    rw [assocGet_append, h]
    simp [assocGet]

theorem aggAdd_get_other {k' key : String} (h : k' ≠ key)
    (errors : List (String × List VErr)) (e : VErr) :
    assocGet k' (aggAdd errors key e) = assocGet k' errors := by
  unfold aggAdd
  cases hg : assocGet key errors with
  | some es => rw [assocGet_assocSet_other _ h]
  | none =>
    rw [assocGet_append]
    cases h2 : assocGet k' errors with
    | some v => rfl
    | none => simp [assocGet, h]

/-! ## Characterizations of the static per-field pipeline -/

/-- Without foreign exceptions, the validator loop succeeds, appends exactly
the `ValidationError` rejections under the field in declaration order, and
reports whether some validator was pending. -/
theorem runValidators_no_fatal (key : String) (value : JSValue)
    (deps : Option (List (String × JSValue))) :
    ∀ (vs : List ValidatorFn) (errors : List (String × List VErr)),
      (∀ v ∈ vs, ∀ m, v value deps ≠ .rejectedOther m) →
      runValidators key value deps errors vs
        = .ok ((collectFails value deps vs).foldl (fun acc e => aggAdd acc key e) errors,
            anyPending value deps vs) := by
  intro vs
  induction vs with
  | nil => intro errors _; rfl
  | cons v rest ih =>
    intro errors hf
    have hfr : ∀ v' ∈ rest, ∀ m, v' value deps ≠ .rejectedOther m :=
      fun v' hv' => hf v' (List.mem_cons_of_mem _ hv')
    have hcf : ∀ tail, collectFails value deps (v :: tail)
        = (match v value deps with
            | ValidatorOutcome.rejectedValidation e => [e]
            | _ => []) ++ collectFails value deps tail := by
      intro tail
      simp only [collectFails, List.filterMap_cons]
      cases v value deps <;> simp
    have hap : ∀ tail, anyPending value deps (v :: tail)
        = ((v value deps == ValidatorOutcome.pending) || anyPending value deps tail) := by
      intro tail
      simp [anyPending]
    cases hv : v value deps with
    | resolved =>
      rw [runValidators]
      simp only [hv]
      rw [ih errors hfr, hcf, hap, hv]
      simp
    | rejectedValidation e =>
      rw [runValidators]
      simp only [hv, handleValidationErrors]
      rw [ih (aggAdd errors key e) hfr, hcf, hap, hv]
      simp
    | rejectedOther m => exact absurd hv (hf v (List.mem_cons_self _ _) m)
    | pending =>
      rw [runValidators]
      simp only [hv]
      rw [ih errors hfr, hcf, hap, hv]
      simp

/-- A foreign exception rejected by a validator (the first such, all earlier
validators rejecting only with `ValidationError`s or resolving) is rethrown
by the per-key handler and fails the whole loop with exactly that
exception. -/
theorem runValidators_fatal (key : String) (value : JSValue)
    (deps : Option (List (String × JSValue))) :
    ∀ (vs1 : List ValidatorFn) (vf : ValidatorFn) (vs2 : List ValidatorFn)
      (errors : List (String × List VErr)) (m : String),
      (∀ v ∈ vs1, ∀ m', v value deps ≠ .rejectedOther m') →
      vf value deps = .rejectedOther m →
      runValidators key value deps errors (vs1 ++ vf :: vs2) = .error m := by
  intro vs1
  induction vs1 with
  | nil =>
    intro vf vs2 errors m _ hvf
    rw [List.nil_append, runValidators]
    simp [hvf, handleValidationErrors]
  | cons v rest ih =>
    intro vf vs2 errors m hf hvf
    have hfr : ∀ v' ∈ rest, ∀ m', v' value deps ≠ .rejectedOther m' :=
      fun v' hv' => hf v' (List.mem_cons_of_mem _ hv')
    cases hv : v value deps with
    | resolved =>
      rw [List.cons_append, runValidators]
      simp only [hv]
      exact ih vf vs2 errors m hfr hvf
    | rejectedValidation e =>
      rw [List.cons_append, runValidators]
      simp only [hv, handleValidationErrors]
      exact ih vf vs2 (aggAdd errors key e) m hfr hvf
    | rejectedOther m' => exact absurd hv (hf v (List.mem_cons_self _ _) m')
    | pending =>
      rw [List.cons_append, runValidators]
      simp only [hv]
      rw [ih vf vs2 errors m hfr hvf]

/-- Whether the validator loop fails, and with which exception, does not
depend on the incoming aggregate. -/
theorem runValidators_error_indep (key : String) (value : JSValue)
    (deps : Option (List (String × JSValue))) :
    ∀ (vs : List ValidatorFn) (errors errors' : List (String × List VErr)) (m : String),
      runValidators key value deps errors vs = .error m →
      runValidators key value deps errors' vs = .error m := by
  intro vs
  induction vs with
  | nil => intro errors errors' m h; rw [runValidators] at h; exact absurd h (by simp)
  | cons v rest ih =>
    intro errors errors' m h
    cases hv : v value deps with
    | resolved =>
      rw [runValidators] at h ⊢
      simp only [hv] at h ⊢
      exact ih _ _ _ h
    | rejectedValidation e =>
      rw [runValidators] at h ⊢
      simp only [hv, handleValidationErrors] at h ⊢
      exact ih _ _ _ h
    | rejectedOther m' =>
      rw [runValidators] at h ⊢
      simp only [hv, handleValidationErrors] at h ⊢
      exact h
    | pending =>
      rw [runValidators] at h ⊢
      simp only [hv] at h ⊢
      cases hr : runValidators key value deps errors rest with
      | error m0 =>
        rw [hr] at h
        simp at h
        subst h
        rw [ih _ errors' _ hr]
      | ok pr =>
        rw [hr] at h
        simp at h

theorem processField_empty_required {value : JSValue} {c : ConstraintSpec}
    (key : String) (deps : Option (List (String × JSValue)))
    (errors : List (String × List VErr))
    (he : isEmpty value = true) (hr : c.required = true) :
    processField key value c deps errors
      = .ok (aggAdd errors key (.required "Cannot be blank")) := by
  simp [processField, he, hr]

theorem processField_empty_not_required {value : JSValue} {c : ConstraintSpec}
    (key : String) (deps : Option (List (String × JSValue)))
    (errors : List (String × List VErr))
    (he : isEmpty value = true) (hr : c.required = false) :
    processField key value c deps errors = .ok errors := by
  simp [processField, he, hr]

theorem processField_no_validators {value : JSValue} {c : ConstraintSpec}
    (key : String) (deps : Option (List (String × JSValue)))
    (errors : List (String × List VErr))
    (he : isEmpty value = false) (hv : c.validators = none) :
    processField key value c deps errors = .ok errors := by
  simp [processField, he, hv]

theorem processField_run_error {key : String} {value : JSValue} {c : ConstraintSpec}
    {deps : Option (List (String × JSValue))} {errors : List (String × List VErr)}
    {vs : List ValidatorFn} {m : String}
    (he : isEmpty value = false) (hv : c.validators = some vs)
    (hrun : runValidators key value deps errors vs = .error m) :
    processField key value c deps errors = .error m := by
  simp [processField, he, hv, hrun]

theorem processField_run_ok_pending {key : String} {value : JSValue} {c : ConstraintSpec}
    {deps : Option (List (String × JSValue))} {errors e1 : List (String × List VErr)}
    {vs : List ValidatorFn}
    (he : isEmpty value = false) (hv : c.validators = some vs)
    (hrun : runValidators key value deps errors vs = .ok (e1, true)) :
    processField key value c deps errors = .ok (aggAdd e1 key validationTimeoutError) := by
  simp [processField, he, hv, hrun, handleValidationErrors]

theorem processField_run_ok_nopending {key : String} {value : JSValue} {c : ConstraintSpec}
    {deps : Option (List (String × JSValue))} {errors e1 : List (String × List VErr)}
    {vs : List ValidatorFn}
    (he : isEmpty value = false) (hv : c.validators = some vs)
    (hrun : runValidators key value deps errors vs = .ok (e1, false)) :
    processField key value c deps errors = .ok e1 := by
  simp [processField, he, hv, hrun]

theorem processField_error_indep {key : String} {value : JSValue} {c : ConstraintSpec}
    {deps : Option (List (String × JSValue))}
    {errors errors' : List (String × List VErr)} {m : String}
    (h : processField key value c deps errors = .error m) :
    processField key value c deps errors' = .error m := by
  by_cases he : isEmpty value
  · by_cases hr : c.required
    · rw [processField_empty_required key deps errors he (by simpa using hr)] at h
      exact absurd h (by simp)
    · rw [processField_empty_not_required key deps errors he (by simpa using hr)] at h
      exact absurd h (by simp)
  · have he' : isEmpty value = false := by simpa using he
    cases hv : c.validators with
    | none =>
      rw [processField_no_validators key deps errors he' hv] at h
      exact absurd h (by simp)
    | some vs =>
      cases hrun : runValidators key value deps errors vs with
      | error m0 =>
        rw [processField_run_error he' hv hrun] at h
        have hm : m0 = m := by simpa using h
        subst hm
        exact processField_run_error he' hv
          (runValidators_error_indep key value deps vs errors errors' _ hrun)
      | ok pr =>
        obtain ⟨e1, pending⟩ := pr
        cases pending with
        | true =>
          rw [processField_run_ok_pending he' hv hrun] at h
          exact absurd h (by simp)
        | false =>
          rw [processField_run_ok_nopending he' hv hrun] at h
          exact absurd h (by simp)

theorem runFields_cons_none (values : List (String × JSValue))
    (cs : List (String × ConstraintSpec)) (key : String) (rest : List String)
    (errors : List (String × List VErr)) (fatal : Option String)
    (hc : assocGet key cs = none) :
    runFields values cs (key :: rest) errors fatal
      = runFields values cs rest errors fatal := by
  rw [runFields]
  simp only [hc]

theorem runFields_cons_ok (values : List (String × JSValue))
    (cs : List (String × ConstraintSpec)) (key : String) (rest : List String)
    (errors errors' : List (String × List VErr)) (fatal : Option String)
    (c : ConstraintSpec) (hc : assocGet key cs = some c)
    (hp : processField key (valueOf values key) c
        (getPromisedDependencyMap values (assocGet key (buildDependencyMap cs))) errors
      = .ok errors') :
    runFields values cs (key :: rest) errors fatal
      = runFields values cs rest errors' fatal := by
  rw [runFields]
  simp only [hc, hp]

theorem runFields_cons_err (values : List (String × JSValue))
    (cs : List (String × ConstraintSpec)) (key : String) (rest : List String)
    (errors : List (String × List VErr)) (fatal : Option String) (m : String)
    (c : ConstraintSpec) (hc : assocGet key cs = some c)
    (hp : processField key (valueOf values key) c
        (getPromisedDependencyMap values (assocGet key (buildDependencyMap cs))) errors
      = .error m) :
    runFields values cs (key :: rest) errors fatal
      = runFields values cs rest errors (some (fatal.getD m)) := by
  rw [runFields]
  simp only [hc, hp]
  cases fatal <;> rfl

theorem runFields_keep_fatal (values : List (String × JSValue))
    (cs : List (String × ConstraintSpec)) :
    ∀ (ks : List String) (errors : List (String × List VErr)) (f : String),
      (runFields values cs ks errors (some f)).2 = some f := by
  intro ks
  induction ks with
  | nil => intro errors f; rfl
  | cons key rest ih =>
    intro errors f
    cases hc : assocGet key cs with
    | none => rw [runFields_cons_none values cs key rest errors _ hc]; exact ih errors f
    | some c =>
      cases hp : processField key (valueOf values key) c
          (getPromisedDependencyMap values (assocGet key (buildDependencyMap cs))) errors with
      | ok errors' =>
        rw [runFields_cons_ok values cs key rest errors errors' _ c hc hp]
        exact ih errors' f
      | error m =>
        rw [runFields_cons_err values cs key rest errors _ m c hc hp]
        exact ih errors f

theorem runFields_no_fatal (values : List (String × JSValue))
    (cs : List (String × ConstraintSpec)) :
    ∀ (ks : List String) (errors : List (String × List VErr)),
      (∀ k ∈ ks, fieldFatal values cs k = none) →
      (runFields values cs ks errors none).2 = none := by
  intro ks
  induction ks with
  | nil => intro errors _; rfl
  | cons key rest ih =>
    intro errors h
    cases hc : assocGet key cs with
    | none =>
      rw [runFields_cons_none values cs key rest errors _ hc]
      exact ih errors (fun k hk => h k (List.mem_cons_of_mem _ hk))
    | some c =>
      cases hp : processField key (valueOf values key) c
          (getPromisedDependencyMap values (assocGet key (buildDependencyMap cs))) errors with
      | ok errors' =>
        rw [runFields_cons_ok values cs key rest errors errors' _ c hc hp]
        exact ih errors' (fun k hk => h k (List.mem_cons_of_mem _ hk))
      | error m =>
        exfalso
        have hff : fieldFatal values cs key = some m := by
          simp only [fieldFatal, hc, processField_error_indep hp]
        rw [h key (List.mem_cons_self _ _)] at hff
        exact absurd hff (by simp)

theorem runFields_first_fatal (values : List (String × JSValue))
    (cs : List (String × ConstraintSpec)) :
    ∀ (pre : List String) (key : String) (post : List String)
      (errors : List (String × List VErr)) (m : String),
      (∀ k ∈ pre, fieldFatal values cs k = none) →
      fieldFatal values cs key = some m →
      (runFields values cs (pre ++ key :: post) errors none).2 = some m := by
  intro pre
  induction pre with
  | nil =>
    intro key post errors m _ hkey
    rw [List.nil_append]
    cases hc : assocGet key cs with
    | none =>
      simp only [fieldFatal, hc] at hkey
      exact absurd hkey (by simp)
    | some c =>
      simp only [fieldFatal, hc] at hkey
      cases hp0 : processField key (valueOf values key) c
          (getPromisedDependencyMap values (assocGet key (buildDependencyMap cs))) [] with
      | ok e0 =>
        simp only [hp0] at hkey
        exact absurd hkey (by simp)
      | error m0 =>
        simp only [hp0, Option.some.injEq] at hkey
        subst hkey
        rw [runFields_cons_err values cs key post errors none m0 c hc
          (processField_error_indep hp0)]
        exact runFields_keep_fatal values cs post errors m0
  | cons k pre' ih =>
    intro key post errors m hpre hkey
    rw [List.cons_append]
    cases hc : assocGet k cs with
    | none =>
      rw [runFields_cons_none values cs k _ errors _ hc]
      exact ih key post errors m (fun x hx => hpre x (List.mem_cons_of_mem _ hx)) hkey
    | some c =>
      cases hp : processField k (valueOf values k) c
          (getPromisedDependencyMap values (assocGet k (buildDependencyMap cs))) errors with
      | ok errors' =>
        rw [runFields_cons_ok values cs k _ errors errors' _ c hc hp]
        exact ih key post errors' m (fun x hx => hpre x (List.mem_cons_of_mem _ hx)) hkey
      | error m0 =>
        exfalso
        have hff : fieldFatal values cs k = some m0 := by
          simp only [fieldFatal, hc, processField_error_indep hp]
        rw [hpre k (List.mem_cons_self _ _)] at hff
        exact absurd hff (by simp)

/-! ## Claim C6 -/

/-- C6.  In static `validate`, every rejection from a validator that is an
`instanceof ValidationError` is caught by the per-key error handler and
appended to the aggregate under that field (conjuncts 1 and 3, the latter
collecting all such rejections in declaration order), and any rejection that
is not a `ValidationError` is rethrown by the handler (conjunct 2), causing
the whole `validate` call to reject with that exception rather than with the
aggregate (conjunct 4 in general, conjunct 5 on a concrete run where another
field had already collected a `ValidationError`). -/
theorem claim_C6 :
    (∀ (errors : List (String × List VErr)) (key : String) (e : VErr),
      handleValidationErrors errors key (.ve e) = .ok (aggAdd errors key e))
    ∧ (∀ (errors : List (String × List VErr)) (key : String) (m : String),
      handleValidationErrors errors key (.other m) = .error m)
    ∧ (∀ (key : String) (value : JSValue) (deps : Option (List (String × JSValue)))
        (vs : List ValidatorFn) (errors : List (String × List VErr)),
        (∀ v ∈ vs, ∀ m, v value deps ≠ .rejectedOther m) →
        runValidators key value deps errors vs
          = .ok ((collectFails value deps vs).foldl (fun acc e => aggAdd acc key e) errors,
              anyPending value deps vs))
    ∧ (∀ (values : List (String × JSValue)) (cs : List (String × ConstraintSpec))
        (order pre : List String) (key : String) (post : List String) (m : String),
        staticOrder values cs = .ok order →
        order = pre ++ key :: post →
        (∀ k ∈ pre, fieldFatal values cs k = none) →
        fieldFatal values cs key = some m →
        validate values cs = .error (.exception m))
    ∧ validate [("a", JSValue.str "x"), ("b", JSValue.str "y")]
        [("a", failingCS), ("b", fatalCS)] = .error (.exception "boom") := by
  refine ⟨fun _ _ _ => rfl, fun _ _ _ => rfl, ?_, ?_, by decide⟩
  · intro key value deps vs errors hf
    exact runValidators_no_fatal key value deps vs errors hf
  · intro values cs order pre key post m h1 horder hpre hkey
    subst horder
    have h2 := runFields_first_fatal values cs pre key post [] m hpre hkey
    rcases hrw : runFields values cs (pre ++ key :: post) [] none with ⟨errs, fat⟩
    have hfat : fat = some m := by
      rw [hrw] at h2
      exact h2
    subst hfat
    simp only [validate, h1, hrw]

/-- C6, witness: a field whose validator rejects with a foreign exception
makes the whole call reject with exactly that exception. -/
theorem claim_C6_witness :
    validate [("a", JSValue.str "x")] [("a", fatalCS)] = .error (.exception "boom") :=
  claim_C6.2.2.2.1 [("a", JSValue.str "x")] [("a", fatalCS)] ["a"] [] "a" [] "boom"
    (by decide) rfl (by simp) (by decide)

/-! ## Claim C7 -/

/-- C7.  In static `validate`, a field whose constraint has `required: true`
and whose resolved value is empty — `null`/`undefined`, a whitespace-only
string such as `'   '`, or an empty array, per `isEmpty` — yields exactly one
error for that field, a `RequiredValidationError`, and its validators are
skipped (the outcome does not depend on the declared validators); a
non-empty value with no validators produces no error for the field. -/
theorem claim_C7 :
    (∀ (key : String) (value : JSValue) (c : ConstraintSpec)
        (deps : Option (List (String × JSValue))) (errors : List (String × List VErr)),
      isEmpty value = true → c.required = true →
      processField key value c deps errors
        = .ok (aggAdd errors key (.required "Cannot be blank")))
    ∧ (∀ (key : String) (value : JSValue) (c : ConstraintSpec)
        (deps : Option (List (String × JSValue))) (errors : List (String × List VErr)),
      isEmpty value = false → c.validators = none →
      processField key value c deps errors = .ok errors)
    ∧ (isEmpty .nullV = true ∧ isEmpty .undef = true ∧ isEmpty (.str "   ") = true
        ∧ isEmpty (.str "") = true ∧ isEmpty (.arr 0) = true
        ∧ isEmpty (.str "x") = false)
    ∧ validate [("a", JSValue.str "   ")] [("a", requiredWithValidatorCS)]
        = .error (.aggregate [("a", [.required "Cannot be blank"])])
    ∧ validate [("b", JSValue.str "x")] [("b", plainCS)] = .ok () := by
  refine ⟨?_, ?_, by decide, by decide, by decide⟩
  · intro key value c deps errors he hr
    exact processField_empty_required key deps errors he hr
  · intro key value c deps errors he hv
    exact processField_no_validators key deps errors he hv

/-- C7, witness: an empty required field with a declared (failing) validator
yields exactly the `RequiredValidationError`. -/
theorem claim_C7_witness :
    processField "a" (JSValue.str "   ") requiredWithValidatorCS none []
      = .ok [("a", [VErr.required "Cannot be blank"])] := by
  rw [claim_C7.1 "a" (JSValue.str "   ") requiredWithValidatorCS none []
    (by decide) (by decide)]
  decide

/-! ## Claim C8 -/

/-- C8.  `VALIDATION_TIMEOUT` is the fixed constant 2000 (not configurable
per call: `validationTimeout()` takes no duration).  In static `validate`, a
validator whose promise has not settled when the shared per-field timeout
fires loses the race, and the resulting `ValidationTimeoutError` is caught
by the per-key handler and recorded in the aggregate for that field. -/
theorem claim_C8 :
    VALIDATION_TIMEOUT = 2000
    ∧ (∀ (key : String) (value : JSValue) (c : ConstraintSpec)
        (deps : Option (List (String × JSValue))) (errors : List (String × List VErr))
        (vs : List ValidatorFn),
        isEmpty value = false → c.validators = some vs →
        (∀ v ∈ vs, ∀ m, v value deps ≠ .rejectedOther m) →
        (∃ v ∈ vs, v value deps = .pending) →
        ∃ errors', processField key value c deps errors = .ok errors' ∧
          validationTimeoutError ∈ (assocGet key errors').getD [])
    ∧ validate [("a", JSValue.str "x")] [("a", pendingCS)]
        = .error (.aggregate [("a", [validationTimeoutError])]) := by
  refine ⟨rfl, ?_, by decide⟩
  intro key value c deps errors vs he hv hnf hpend
  have hap : anyPending value deps vs = true := by
    obtain ⟨v, hvm, hvp⟩ := hpend
    unfold anyPending
    rw [List.any_eq_true]
    exact ⟨v, hvm, by rw [hvp]; rfl⟩
  have hrun := runValidators_no_fatal key value deps vs errors hnf
  rw [hap] at hrun
  refine ⟨aggAdd ((collectFails value deps vs).foldl (fun acc e => aggAdd acc key e) errors)
      key validationTimeoutError, processField_run_ok_pending he hv hrun, ?_⟩
  rw [aggAdd_get_self]
  simp

/-- C8, witness: a constraint whose single validator never settles records
the timeout error for the field. -/
theorem claim_C8_witness :
    ∃ errors', processField "a" (JSValue.str "x") pendingCS none [] = .ok errors' ∧
      validationTimeoutError ∈ (assocGet "a" errors').getD [] :=
  claim_C8.2.1 "a" (JSValue.str "x") pendingCS none [] [pendingValidator]
    (by decide) rfl
    (by intro v hv m; rcases List.mem_singleton.1 hv with rfl; simp [pendingValidator])
    ⟨pendingValidator, by simp, rfl⟩

/-- C3, witness: the universally quantified part applied to the concrete
three-field cycle. -/
theorem claim_C3_witness :
    (∃ p, triGraph.overallOrder false = .error (.cycle p) ∧
      CyclePath triGraph.outgoingEdges p) ∧
    (∃ p, triGraph.dependenciesOf 0 false = .error (.cycle p) ∧
      CyclePath triGraph.outgoingEdges p) ∧
    (∃ p, triGraph.dependantsOf 0 false = .error (.cycle p) ∧
      CyclePath triGraph.incomingEdges p) := by
  have h01 : edgeStep triGraph.outgoingEdges 0 1 := by decide
  have h12 : edgeStep triGraph.outgoingEdges 1 2 := by decide
  have h20 : edgeStep triGraph.outgoingEdges 2 0 := by decide
  exact claim_C3.1 Nat (Option Unit) triGraph 0 (by decide)
    (Relation.TransGen.head h01 (Relation.TransGen.head h12 (Relation.TransGen.single h20)))

/-! ## Claim C9 -/

/-- C9.  Adding a node whose data is `null`/`undefined` (embedded: `none`)
makes `hasNode` answer `true`, yet `getNodeData` throws
`NoSuchNodeGraphError` for it — exactly the error an absent node produces —
because `getNodeData` only checks `data == null` after the `Map.get`; so it
cannot distinguish an absent node from a present node carrying
`null`/`undefined` data (and the validators do store possibly-`undefined`
constraints as node data). -/
theorem claim_C9 :
    (∀ (K W : Type) [DecidableEq K] (g : Graph K (Option W)) (n : K),
      g.hasNode n = false →
      (g.addNode n none).hasNode n = true
      ∧ (g.addNode n none).getNodeData n = .error (.noSuchNode n)
      ∧ g.getNodeData n = .error (.noSuchNode n))
    ∧ ((Graph.empty.addNode "a" (none : Option Nat)).hasNode "a" = true
      ∧ (Graph.empty.addNode "a" (none : Option Nat)).getNodeData "a"
          = .error (.noSuchNode "a")
      ∧ (Graph.empty : Graph String (Option Nat)).getNodeData "a"
          = .error (.noSuchNode "a")) := by
  refine ⟨?_, by decide, by decide, by decide⟩
  intro K W _ g n h
  have hng : assocGet n g.nodes = none := by
    unfold Graph.hasNode at h
    cases hg : assocGet n g.nodes with
    | none => rfl
    | some v => rw [hg] at h; simp at h
  have haddnodes : (g.addNode n none).nodes = g.nodes ++ [(n, none)] := by
    simp [Graph.addNode, hng]
  have hget : assocGet n (g.addNode n none).nodes = some none := by
    rw [haddnodes, assocGet_append, hng]
    simp [assocGet]
  refine ⟨?_, ?_, ?_⟩
  · unfold Graph.hasNode
    rw [hget]
    rfl
  · unfold Graph.getNodeData
    rw [hget]
    rfl
  · unfold Graph.getNodeData
    rw [hng]
    rfl

/-- C9, witness: the general statement at a concrete graph. -/
theorem claim_C9_witness :
    (Graph.empty.addNode 0 (none : Option Nat)).hasNode 0 = true
    ∧ (Graph.empty.addNode 0 (none : Option Nat)).getNodeData 0
        = .error (.noSuchNode 0)
    ∧ (Graph.empty : Graph Nat (Option Nat)).getNodeData 0 = .error (.noSuchNode 0) :=
  claim_C9.1 Nat Nat Graph.empty 0 (by decide)

/-! ## Change-map lemmas -/

theorem addError_eq_aggAdd (cm : List (String × List VErr)) (n : String) (e : VErr) :
    addError cm n e = aggAdd cm n e := rfl

theorem hasErrors_iff (cm : List (String × List VErr)) :
    hasErrors cm = true ↔ ∃ p ∈ cm, p.2 ≠ [] := by
  unfold hasErrors
  rw [List.any_eq_true]
  constructor
  · rintro ⟨p, hp, h⟩
    refine ⟨p, hp, ?_⟩
    cases q : p.2 with
    | nil => rw [q] at h; simp at h
    | cons a l => simp
  · rintro ⟨p, hp, h⟩
    refine ⟨p, hp, ?_⟩
    cases q : p.2 with
    | nil => exact absurd q h
    | cons a l => simp

theorem hasErrors_of_get {cm : List (String × List VErr)} {n : String} {es : List VErr}
    (h : assocGet n cm = some es) (hne : es ≠ []) : hasErrors cm = true :=
  (hasErrors_iff cm).2 ⟨(n, es), assocGet_mem h, hne⟩

theorem hasErrors_addError (cm : List (String × List VErr)) (n : String) (e : VErr) :
    hasErrors (addError cm n e) = true :=
  hasErrors_of_get
    (by rw [addError_eq_aggAdd]; exact aggAdd_get_self cm n e) (by simp)

theorem hasErrors_foldl_addError (n : String) :
    ∀ (l : List VErr), l ≠ [] → ∀ cm,
      hasErrors (l.foldl (fun acc e => addError acc n e) cm) = true := by
  intro l
  induction l with
  | nil => intro h; exact absurd rfl h
  | cons e rest ih =>
    intro _ cm
    rw [List.foldl_cons]
    cases rest with
    | nil => exact hasErrors_addError cm n e
    | cons e' rest' => exact ih (by simp) (addError cm n e)

theorem keys_assocSet {K V : Type} [DecidableEq K] (k : K) (v : V) :
    ∀ l : List (K × V), (assocSet k v l).map Prod.fst = l.map Prod.fst ∨
      (assocSet k v l).map Prod.fst = l.map Prod.fst ++ [k] := by
  intro l
  induction l with
  | nil => right; rfl
  | cons p rest ih =>
    unfold assocSet
    by_cases h : k = p.1
    · left
      simp only [if_pos h]
      simp [h]
    · rcases ih with ih | ih
      · left
        simp only [if_neg h, List.map_cons, ih]
      · right
        simp only [if_neg h, List.map_cons, ih]
        rfl

theorem mem_keys_addError {d n : String} {cm : List (String × List VErr)} (e : VErr)
    (h : d ∈ (addError cm n e).map Prod.fst) : d ∈ cm.map Prod.fst ∨ d = n := by
  cases hg : assocGet n cm with
  | some es =>
    simp only [addError, hg] at h
    rcases keys_assocSet n (es ++ [e]) cm with hk | hk
    · rw [hk] at h; exact .inl h
    · rw [hk] at h
      rcases List.mem_append.1 h with h' | h'
      · exact .inl h'
      · exact .inr (by simpa using h')
  | none =>
    simp only [addError, hg] at h
    rw [List.map_append] at h
    rcases List.mem_append.1 h with h' | h'
    · exact .inl h'
    · exact .inr (by simpa using h')

theorem mem_keys_markNodeAsChanged {d n : String} {cm : List (String × List VErr)}
    (h : d ∈ (markNodeAsChanged cm n).map Prod.fst) : d ∈ cm.map Prod.fst ∨ d = n := by
  unfold markNodeAsChanged at h
  by_cases hb : (assocGet n cm).isSome = true
  · rw [if_pos hb] at h; exact .inl h
  · rw [if_neg hb, List.map_append] at h
    rcases List.mem_append.1 h with h' | h'
    · exact .inl h'
    · exact .inr (by simpa using h')

theorem mem_keys_foldl_addError {d n : String} :
    ∀ (l : List VErr) (cm : List (String × List VErr)),
      d ∈ (l.foldl (fun acc e => addError acc n e) cm).map Prod.fst →
      d ∈ cm.map Prod.fst ∨ d = n := by
  intro l
  induction l with
  | nil => intro cm h; exact .inl h
  | cons e rest ih =>
    intro cm h
    rw [List.foldl_cons] at h
    rcases ih (addError cm n e) h with h' | h'
    · exact mem_keys_addError e h'
    · exact .inr h'

/-! ## Characterizations of the live per-node pipeline -/

/-- The raced live validator loop, in closed form: the `ValidationError`
rejections folded into the change map under the node in declaration order,
the pending flag, and the first foreign rejection. -/
theorem runLiveValidators_eq (node : String) (value : JSValue)
    (deps : Option (List (String × JSValue))) :
    ∀ (vs : List ValidatorFn) (cm : List (String × List VErr)),
      runLiveValidators node value deps vs cm
        = ((collectFails value deps vs).foldl (fun acc e => addError acc node e) cm,
            anyPending value deps vs, firstFatal value deps vs) := by
  intro vs
  induction vs with
  | nil => intro cm; rfl
  | cons v rest ih =>
    intro cm
    have hcf : ∀ tail, collectFails value deps (v :: tail)
        = (match v value deps with
            | ValidatorOutcome.rejectedValidation e => [e]
            | _ => []) ++ collectFails value deps tail := by
      intro tail
      simp only [collectFails, List.filterMap_cons]
      cases v value deps <;> simp
    have hap : ∀ tail, anyPending value deps (v :: tail)
        = ((v value deps == ValidatorOutcome.pending) || anyPending value deps tail) := by
      intro tail
      simp [anyPending]
    have hff : ∀ tail, firstFatal value deps (v :: tail)
        = (match v value deps with
            | ValidatorOutcome.rejectedOther m => some m
            | _ => Option.none).or (firstFatal value deps tail) := by
      intro tail
      simp only [firstFatal, List.findSome?_cons]
      cases v value deps <;> simp
    cases hv : v value deps with
    | resolved =>
      rw [runLiveValidators]
      simp only [hv]
      rw [ih cm, hcf, hap, hff, hv]
      simp
    | rejectedValidation e =>
      rw [runLiveValidators]
      simp only [hv]
      rw [ih (addError cm node e), hcf, hap, hff, hv]
      simp
    | rejectedOther m =>
      rw [runLiveValidators]
      simp only [hv]
      rw [ih cm, hcf, hap, hff, hv]
      simp
    | pending =>
      rw [runLiveValidators]
      simp only [hv]
      rw [ih cm, hcf, hap, hff, hv]
      simp

/-- The first foreign rejection fails the raced loop with exactly that
exception. -/
theorem runLiveValidators_fatal (node : String) (value : JSValue)
    (deps : Option (List (String × JSValue))) :
    ∀ (vs1 : List ValidatorFn) (vf : ValidatorFn) (vs2 : List ValidatorFn)
      (cm : List (String × List VErr)) (m : String),
      (∀ v ∈ vs1, ∀ m', v value deps ≠ .rejectedOther m') →
      vf value deps = .rejectedOther m →
      (runLiveValidators node value deps (vs1 ++ vf :: vs2) cm).2.2 = some m := by
  intro vs1
  induction vs1 with
  | nil =>
    intro vf vs2 cm m _ hvf
    rw [List.nil_append, runLiveValidators]
    simp only [hvf]
  | cons v rest ih =>
    intro vf vs2 cm m hf hvf
    have hfr : ∀ v' ∈ rest, ∀ m', v' value deps ≠ .rejectedOther m' :=
      fun v' hv' => hf v' (List.mem_cons_of_mem _ hv')
    cases hv : v value deps with
    | resolved =>
      rw [List.cons_append, runLiveValidators]
      simp only [hv]
      exact ih vf vs2 cm m hfr hvf
    | rejectedValidation e =>
      rw [List.cons_append, runLiveValidators]
      simp only [hv]
      exact ih vf vs2 (addError cm node e) m hfr hvf
    | rejectedOther m' => exact absurd hv (hf v (List.mem_cons_self _ _) m')
    | pending =>
      rw [List.cons_append, runLiveValidators]
      simp only [hv]
      exact ih vf vs2 cm m hfr hvf

theorem validateNode_run_fatal {values : List (String × JSValue)}
    {cs : List (String × ConstraintSpec)} {graph : Graph String (Option ConstraintSpec)}
    {depMap : List (String × List String)} {fuel : Nat} {node : String}
    {cm cm2 : List (String × List VErr)} {p : Bool} {m : String}
    {c : ConstraintSpec} {vs : List ValidatorFn}
    (hc : assocGet node cs = some c) (hv : c.validators = some vs)
    (hrun : runLiveValidators node (valueOf values node)
        (some (getPromisedDependencyMapLive values (assocGet node depMap))) vs
        (markNodeAsChanged cm node) = (cm2, p, some m)) :
    validateNode values cs graph depMap true (fuel + 1) node cm
      = (cm2, some (.exception m)) := by
  rw [validateNode]
  simp only [hc, hv, hrun, cond_true]

theorem validateNode_run_pending {values : List (String × JSValue)}
    {cs : List (String × ConstraintSpec)} {graph : Graph String (Option ConstraintSpec)}
    {depMap : List (String × List String)} {fuel : Nat} {node : String}
    {cm cm2 : List (String × List VErr)} {c : ConstraintSpec} {vs : List ValidatorFn}
    (hc : assocGet node cs = some c) (hv : c.validators = some vs)
    (hrun : runLiveValidators node (valueOf values node)
        (some (getPromisedDependencyMapLive values (assocGet node depMap))) vs
        (markNodeAsChanged cm node) = (cm2, true, none)) :
    validateNode values cs graph depMap true (fuel + 1) node cm
      = (addError cm2 node validationTimeoutError, none) := by
  rw [validateNode]
  simp only [hc, hv, hrun, cond_true]

theorem validateNode_run_haserr {values : List (String × JSValue)}
    {cs : List (String × ConstraintSpec)} {graph : Graph String (Option ConstraintSpec)}
    {depMap : List (String × List String)} {fuel : Nat} {node : String}
    {cm cm2 : List (String × List VErr)} {c : ConstraintSpec} {vs : List ValidatorFn}
    (hc : assocGet node cs = some c) (hv : c.validators = some vs)
    (hrun : runLiveValidators node (valueOf values node)
        (some (getPromisedDependencyMapLive values (assocGet node depMap))) vs
        (markNodeAsChanged cm node) = (cm2, false, none))
    (herr : hasErrors cm2 = true) :
    validateNode values cs graph depMap true (fuel + 1) node cm = (cm2, none) := by
  rw [validateNode]
  simp only [hc, hv, hrun, cond_true, herr]
  rfl

theorem validateNode_run_noerr {values : List (String × JSValue)}
    {cs : List (String × ConstraintSpec)} {graph : Graph String (Option ConstraintSpec)}
    {depMap : List (String × List String)} {fuel : Nat} {node : String}
    {cm cm2 : List (String × List VErr)} {c : ConstraintSpec} {vs : List ValidatorFn}
    (hc : assocGet node cs = some c) (hv : c.validators = some vs)
    (hrun : runLiveValidators node (valueOf values node)
        (some (getPromisedDependencyMapLive values (assocGet node depMap))) vs
        (markNodeAsChanged cm node) = (cm2, false, none))
    (herr : hasErrors cm2 = false) :
    validateNode values cs graph depMap true (fuel + 1) node cm
      = validateDependenciesForAux cs graph true
          (validateNode values cs graph depMap true fuel) node cm2 := by
  rw [validateNode]
  simp only [hc, hv, hrun, cond_true, herr]
  rfl

/-! ## Claim C10 -/

/-- C10.  Within one cascade's `LiveValidationChangeMap`, per-node error
lists are append-only: `addError` appends to an existing list or creates a
singleton and leaves every other node alone; `markNodeAsChanged` on a node
that already has an entry is the identity, and it never erases errors
already recorded for any node; `hasErrors` is true exactly when some node's
list is non-empty. -/
theorem claim_C10 :
    (∀ (cm : List (String × List VErr)) (node : String) (e : VErr),
      getErrorsForNode (addError cm node e) node
        = some ((getErrorsForNode cm node).getD [] ++ [e])
      ∧ ∀ other, other ≠ node →
          getErrorsForNode (addError cm node e) other = getErrorsForNode cm other)
    ∧ (∀ (cm : List (String × List VErr)) (node : String),
        (getErrorsForNode cm node).isSome = true → markNodeAsChanged cm node = cm)
    ∧ (∀ (cm : List (String × List VErr)) (node node' : String) (es : List VErr),
        getErrorsForNode cm node' = some es →
        getErrorsForNode (markNodeAsChanged cm node) node' = some es)
    ∧ (∀ cm : List (String × List VErr),
        hasErrors cm = true ↔ ∃ p ∈ cm, p.2 ≠ []) := by
  refine ⟨?_, ?_, ?_, hasErrors_iff⟩
  · intro cm node e
    refine ⟨?_, ?_⟩
    · show assocGet node (addError cm node e) = _
      rw [addError_eq_aggAdd]
      exact aggAdd_get_self cm node e
    · intro other ho
      show assocGet other (addError cm node e) = assocGet other cm
      rw [addError_eq_aggAdd]
      exact aggAdd_get_other ho cm e
  · intro cm node h
    unfold markNodeAsChanged
    exact if_pos h
  · intro cm node node' es h
    unfold markNodeAsChanged
    by_cases hb : (assocGet node cm).isSome = true
    · rw [if_pos hb]; exact h
    · rw [if_neg hb]
      have h' : assocGet node' cm = some es := h
      show assocGet node' (cm ++ [(node, [])]) = some es
      rw [assocGet_append]
      simp only [h']

/-- C10, witness: marking an unrelated node leaves recorded errors in
place. -/
theorem claim_C10_witness :
    getErrorsForNode (markNodeAsChanged [("a", [VErr.validation "x"])] "b") "a"
      = some [VErr.validation "x"] :=
  claim_C10.2.2.1 [("a", [VErr.validation "x"])] "b" "a" [VErr.validation "x"] rfl

/-! ## Claim C2 -/

/-- C2.  Each change event on a subscribed field increments the field's
version counter and captures the incremented value (conjunct 1); a cascade
started at version `N` reports its change map to the global `onChange`
exactly when `N` still equals the field's version when the cascade settles
and the subscription is alive, for settled and rejected cascades alike
(conjunct 2); hence of two rapid changes to one field, the first cascade's
captured version can no longer match after the second bump, so only the
later-initiated cascade's change map reaches `onChange` (conjunct 3). -/
theorem claim_C2 :
    (∀ st : ValidationNodeState, st.subscriptionIsActive = true →
      handleChangeEvent st
        = some (st.version + 1, { st with version := st.version + 1 }))
    ∧ (∀ (cm : List (String × List VErr)) (abort : Option LiveAbort) (version : Nat)
        (stS : ValidationNodeState) (hasLocal : Bool),
        (unwrapErrors cm abort version stS hasLocal).globalReport = some cm
          ↔ version = stS.version ∧ stS.subscriptionIsActive = true)
    ∧ (∀ st0 : ValidationNodeState, st0.subscriptionIsActive = true →
        ∀ (v1 : Nat) (st1 : ValidationNodeState) (v2 : Nat) (st2 : ValidationNodeState),
          handleChangeEvent st0 = some (v1, st1) →
          handleChangeEvent st1 = some (v2, st2) →
          v1 ≠ st2.version ∧ v2 = st2.version
          ∧ ∀ (cm1 cm2 : List (String × List VErr)) (ab1 ab2 : Option LiveAbort)
              (hl1 hl2 : Bool),
              (unwrapErrors cm1 ab1 v1 st2 hl1).globalReport = none
              ∧ (unwrapErrors cm2 ab2 v2 st2 hl2).globalReport = some cm2) := by
  refine ⟨?_, ?_, ?_⟩
  · intro st h
    unfold handleChangeEvent
    exact if_pos h
  · intro cm abort version stS hasLocal
    cases abort with
    | none =>
      show (if version = stS.version ∧ stS.subscriptionIsActive = true
          then some cm else none) = some cm ↔ _
      by_cases hcond : version = stS.version ∧ stS.subscriptionIsActive = true
      · rw [if_pos hcond]; simp [hcond]
      · rw [if_neg hcond]; simp [hcond]
    | some e =>
      show (if version = stS.version ∧ stS.subscriptionIsActive = true
          then some cm else none) = some cm ↔ _
      by_cases hcond : version = stS.version ∧ stS.subscriptionIsActive = true
      · rw [if_pos hcond]; simp [hcond]
      · rw [if_neg hcond]; simp [hcond]
  · intro st0 h0 v1 st1 v2 st2 h1 h2
    unfold handleChangeEvent at h1 h2
    rw [if_pos h0] at h1
    simp only [Option.some.injEq, Prod.mk.injEq] at h1
    obtain ⟨hv1, hst1⟩ := h1
    subst hv1
    subst hst1
    have hact1 : ({ st0 with version := st0.version + 1 } :
        ValidationNodeState).subscriptionIsActive = true := h0
    rw [if_pos hact1] at h2
    simp only [Option.some.injEq, Prod.mk.injEq] at h2
    obtain ⟨hv2, hst2⟩ := h2
    subst hv2
    subst hst2
    refine ⟨by show st0.version + 1 ≠ st0.version + 1 + 1; omega, rfl, ?_⟩
    intro cm1 cm2 ab1 ab2 hl1 hl2
    constructor
    · cases ab1 with
      | none =>
        show (if st0.version + 1 = st0.version + 1 + 1 ∧ _ then some cm1 else none) = none
        exact if_neg (by rintro ⟨h, -⟩; omega)
      | some e =>
        show (if st0.version + 1 = st0.version + 1 + 1 ∧ _ then some cm1 else none) = none
        exact if_neg (by rintro ⟨h, -⟩; omega)
    · cases ab2 with
      | none => exact if_pos ⟨rfl, h0⟩
      | some e => exact if_pos ⟨rfl, h0⟩

/-- C2, witness: the two-rapid-changes scenario at concrete states — the
first cascade captured version 1, both cascades settle with the counter at
2, and only the second one reaches `onChange`. -/
theorem claim_C2_witness :
    (unwrapErrors [("a", [])] none 1 ⟨true, 2⟩ true).globalReport = none
    ∧ (unwrapErrors [("a", [VErr.validation "bad"])] none 2 ⟨true, 2⟩ true).globalReport
        = some [("a", [VErr.validation "bad"])] := by
  have h := claim_C2.2.2 ⟨true, 0⟩ rfl 1 ⟨true, 1⟩ 2 ⟨true, 2⟩ (by decide) (by decide)
  exact ⟨(h.2.2 [("a", [])] [("a", [VErr.validation "bad"])] none none true true).1,
    (h.2.2 [("a", [])] [("a", [VErr.validation "bad"])] none none true true).2⟩

/-! ## Claim C5 -/

/-- C5, counterexample to the claim's propagation half: a live cascade whose
validator rejects with a foreign exception does carry that exception to the
validation promise, yet `unwrapErrors` — which decorates every cascade —
swallows it (nothing escapes to the caller) and still invokes the global
`onChange` with the change map when the version is current. -/
theorem claim_C5_counterexample :
    lvCascade lvValues (lvCS (fatalValidator "boom")) 3 "a"
      = some ([("a", [])], some (.exception "boom"))
    ∧ (unwrapErrors [("a", [])] (some (.exception "boom")) 1 ⟨true, 1⟩ true).propagated
        = none
    ∧ (unwrapErrors [("a", [])] (some (.exception "boom")) 1 ⟨true, 1⟩ true).globalReport
        = some [("a", [])] := by decide

/-- C5 (amended).  During a live cascade, a validator rejecting with a
non-`ValidationError` exception is not folded into the change map by the
per-field error handler (conjuncts 1 and 2: the handler rethrows foreign
exceptions and folds only `ValidationError`s), and the rejection fails the
node's validation promise with exactly that exception (conjunct 3) — but
the cascade's decorated promise does not reject to the caller:
`unwrapErrors` hands the exception to the local change callback if one was
supplied, rethrows nothing, and still reports the change map to the global
`onChange` whenever the captured version is current (conjunct 4). -/
theorem claim_C5 :
    (∀ (cm : List (String × List VErr)) (node m : String),
      getErrorHandlerForNode node cm (.other m) = .error m)
    ∧ (∀ (cm : List (String × List VErr)) (node : String) (e : VErr),
      getErrorHandlerForNode node cm (.ve e) = .ok (addError cm node e))
    ∧ (∀ (values : List (String × JSValue)) (cs : List (String × ConstraintSpec))
        (graph : Graph String (Option ConstraintSpec))
        (depMap : List (String × List String)) (fuel : Nat) (node : String)
        (cm : List (String × List VErr)) (c : ConstraintSpec)
        (vs1 : List ValidatorFn) (vf : ValidatorFn) (vs2 : List ValidatorFn) (m : String),
        assocGet node cs = some c →
        c.validators = some (vs1 ++ vf :: vs2) →
        (∀ v ∈ vs1, ∀ m', v (valueOf values node)
          (some (getPromisedDependencyMapLive values (assocGet node depMap)))
            ≠ .rejectedOther m') →
        vf (valueOf values node)
          (some (getPromisedDependencyMapLive values (assocGet node depMap)))
            = .rejectedOther m →
        ∃ cm2, validateNode values cs graph depMap true (fuel + 1) node cm
          = (cm2, some (.exception m)))
    ∧ (∀ (cm : List (String × List VErr)) (e : LiveAbort) (version : Nat)
        (stS : ValidationNodeState) (hl : Bool),
        (unwrapErrors cm (some e) version stS hl).propagated = none
        ∧ (hl = true →
            (unwrapErrors cm (some e) version stS hl).localReport
              = some (.withException e))
        ∧ (unwrapErrors cm (some e) version stS hl).globalReport
            = (if version = stS.version ∧ stS.subscriptionIsActive = true
                then some cm else none)) := by
  refine ⟨fun _ _ _ => rfl, fun _ _ _ => rfl, ?_, ?_⟩
  · intro values cs graph depMap fuel node cm c vs1 vf vs2 m hc hv hvs1 hvf
    rcases hrun : runLiveValidators node (valueOf values node)
        (some (getPromisedDependencyMapLive values (assocGet node depMap)))
        (vs1 ++ vf :: vs2) (markNodeAsChanged cm node) with ⟨cm2, p, f⟩
    have hf : f = some m := by
      have h := runLiveValidators_fatal node (valueOf values node)
        (some (getPromisedDependencyMapLive values (assocGet node depMap)))
        vs1 vf vs2 (markNodeAsChanged cm node) m hvs1 hvf
      rw [hrun] at h
      exact h
    subst hf
    exact ⟨cm2, validateNode_run_fatal hc hv hrun⟩
  · intro cm e version stS hl
    refine ⟨rfl, fun h => ?_, rfl⟩
    show (if hl = true then some (LocalReport.withException e) else none) = _
    rw [if_pos h]

/-- C5, witness: a concrete node whose single validator throws a foreign
exception fails its validation promise with that exception. -/
theorem claim_C5_witness :
    ∃ cm2, validateNode lvValues (lvCS (fatalValidator "boom")) Graph.empty [] true 1 "a" []
      = (cm2, some (.exception "boom")) :=
  claim_C5.2.2.1 lvValues (lvCS (fatalValidator "boom")) Graph.empty [] 0 "a" []
    { validators := some [fatalValidator "boom"] } [] (fatalValidator "boom") [] "boom"
    rfl rfl (by simp) rfl

/-! ## Claim C4 -/

/-- C4.  In a live cascade, a node whose own validators produce at least one
`ValidationError` (and no foreign exception or timeout) settles with
exactly the error-extended change map — `validateNode` does not recurse,
and any dependant not already in the map is still absent from it
(conjunct 1); only when the change map is error-free after the node's
validators does the cascade recurse into the immediate dependants
(conjunct 2).  Conjuncts 3 and 4 run the two-field graph where `b` depends
on `a`: a failing validator on `a` leaves `b` out of the change map, a
succeeding one visits `b`. -/
theorem claim_C4 :
    (∀ (values : List (String × JSValue)) (cs : List (String × ConstraintSpec))
        (graph : Graph String (Option ConstraintSpec))
        (depMap : List (String × List String)) (fuel : Nat) (node : String)
        (cm : List (String × List VErr)) (c : ConstraintSpec) (vs : List ValidatorFn),
        assocGet node cs = some c →
        c.validators = some vs →
        firstFatal (valueOf values node)
          (some (getPromisedDependencyMapLive values (assocGet node depMap))) vs = none →
        anyPending (valueOf values node)
          (some (getPromisedDependencyMapLive values (assocGet node depMap))) vs = false →
        collectFails (valueOf values node)
          (some (getPromisedDependencyMapLive values (assocGet node depMap))) vs ≠ [] →
        validateNode values cs graph depMap true (fuel + 1) node cm
          = ((collectFails (valueOf values node)
                (some (getPromisedDependencyMapLive values (assocGet node depMap))) vs).foldl
              (fun acc e => addError acc node e) (markNodeAsChanged cm node), none)
        ∧ ∀ d, d ∉ cm.map Prod.fst → d ≠ node →
            d ∉ ((collectFails (valueOf values node)
                (some (getPromisedDependencyMapLive values (assocGet node depMap))) vs).foldl
              (fun acc e => addError acc node e) (markNodeAsChanged cm node)).map Prod.fst)
    ∧ (∀ (values : List (String × JSValue)) (cs : List (String × ConstraintSpec))
        (graph : Graph String (Option ConstraintSpec))
        (depMap : List (String × List String)) (fuel : Nat) (node : String)
        (cm : List (String × List VErr)) (c : ConstraintSpec) (vs : List ValidatorFn),
        assocGet node cs = some c →
        c.validators = some vs →
        firstFatal (valueOf values node)
          (some (getPromisedDependencyMapLive values (assocGet node depMap))) vs = none →
        anyPending (valueOf values node)
          (some (getPromisedDependencyMapLive values (assocGet node depMap))) vs = false →
        hasErrors ((collectFails (valueOf values node)
            (some (getPromisedDependencyMapLive values (assocGet node depMap))) vs).foldl
          (fun acc e => addError acc node e) (markNodeAsChanged cm node)) = false →
        validateNode values cs graph depMap true (fuel + 1) node cm
          = validateDependenciesForAux cs graph true
              (validateNode values cs graph depMap true fuel) node
              ((collectFails (valueOf values node)
                  (some (getPromisedDependencyMapLive values (assocGet node depMap))) vs).foldl
                (fun acc e => addError acc node e) (markNodeAsChanged cm node)))
    ∧ lvCascade lvValues (lvCS (failValidator "bad")) 3 "a"
        = some ([("a", [VErr.validation "bad"])], none)
    ∧ lvCascade lvValues (lvCS okValidator) 3 "a"
        = some ([("a", []), ("b", [])], none) := by
  refine ⟨?_, ?_, by decide, by decide⟩
  · intro values cs graph depMap fuel node cm c vs hc hv hfat hpend herr
    have hrun := runLiveValidators_eq node (valueOf values node)
      (some (getPromisedDependencyMapLive values (assocGet node depMap))) vs
      (markNodeAsChanged cm node)
    rw [hfat, hpend] at hrun
    refine ⟨validateNode_run_haserr hc hv hrun
      (hasErrors_foldl_addError node _ herr _), ?_⟩
    intro d hd hdn hmem
    rcases mem_keys_foldl_addError _ _ hmem with h | h
    · rcases mem_keys_markNodeAsChanged h with h' | h'
      · exact hd h'
      · exact hdn h'
    · exact hdn h
  · intro values cs graph depMap fuel node cm c vs hc hv hfat hpend hnoerr
    have hrun := runLiveValidators_eq node (valueOf values node)
      (some (getPromisedDependencyMapLive values (assocGet node depMap))) vs
      (markNodeAsChanged cm node)
    rw [hfat, hpend] at hrun
    exact validateNode_run_noerr hc hv hrun hnoerr

/-- C4, witness: the general errors-stop-the-branch statement applied to
the concrete failing field. -/
theorem claim_C4_witness :
    validateNode lvValues (lvCS (failValidator "bad")) Graph.empty [] true 1 "a" []
      = ([("a", [VErr.validation "bad"])], none) := by
  have h := (claim_C4.1 lvValues (lvCS (failValidator "bad")) Graph.empty [] 0 "a" []
    { validators := some [failValidator "bad"] } [failValidator "bad"]
    rfl rfl (by decide) (by decide) (by decide)).1
  rw [h]
  decide

end VTS
